import Mathlib

/-!
Shallow embedding of `constraint_generation/src/execution_data/executed_template.rs`
(the instantiation-to-graph transform and the instance-export transform of the
circom constraint-generation stage), together with proofs of the specified
properties.

The dependency graph (`dag::DAG`) is external to the sources; its mutating
registration calls are modelled as an explicit list of registration events, so
that every function of the source file becomes a pure Lean function over the
same data.
-/

namespace Circom

/-- One scalar-signal registration performed against the dependency graph
(`dag.add_input` / `dag.add_output` / `dag.add_intermediate`). -/
inductive SigEvent where
  | input (name : String) (is_public : Bool)
  | output (name : String)
  | intermediate (name : String)
  deriving DecidableEq, Repr

/-- Modelled from the spec: `SubComponentData` lives in the external
`compiler::hir::very_concrete_program` crate.  Per the spec's data model a
connexion's `inspect` field carries the sub-component array name, the target
instantiation id (`goes_to`) and the index expression used for ordering
(`indexed_with`, a vector of machine integers ordered lexicographically). -/
structure SubComponentData where
  name : String
  goes_to : Nat
  indexed_with : List Nat
  deriving DecidableEq, Repr

/-- Embedding of the private `Connexion` record of `executed_template.rs`. -/
structure Connexion where
  full_name : String
  inspect : SubComponentData
  dag_offset : Nat
  dag_component_offset : Nat
  dag_jump : Nat
  dag_component_jump : Nat
  deriving DecidableEq, Repr

/-- Modelled from the spec: the arithmetic-expression type of the external
`circom_algebra` crate.  Only the distinction between the `Number` variant and
every non-numeric variant is observable in this core (`as_big_int` keeps
numbers and drops everything else), so the non-numeric variants are
represented by two stand-ins. -/
inductive ArithmeticExpression where
  | Number (value : Int)
  | Signal (symbol : String)
  | NonQuadratic
  deriving DecidableEq, Repr

/-- Embedding of `ExecutedTemplate`.  The fields this core never inspects
(`code`, `report_name`, `constraints`, the parallel flags) are omitted; the
`public_inputs` hash set is modelled as a list used only through membership. -/
structure ExecutedTemplate where
  inputs : List (String × List Nat)
  outputs : List (String × List Nat)
  intermediates : List (String × List Nat)
  public_inputs : List String
  components : List (String × List Nat)
  connexions : List Connexion
  parameter_instances : List (String × (List Nat × List ArithmeticExpression))
  deriving Repr

/-- Embedding of the free function `generate_symbols`.  The Rust recursion
advances an index `state.dim` into `config.dimensions`; here the remaining
dimension suffix is passed directly, and the accumulated bracket-suffixed name
is built with the same `format!("{}[{}]", name, index)` scheme.  `signal_type`
`0`/`1`/`2` registers an input / output / intermediate scalar exactly as the
`if` chain of the source does (any other tag registers nothing). -/
def generate_symbols (name : String) (dims : List Nat)
    (signal_type : Nat) (is_public : Bool) : List SigEvent :=
  match dims with
  | [] =>
    if signal_type = 0 then [SigEvent.input name is_public]
    else if signal_type = 1 then [SigEvent.output name]
    else if signal_type = 2 then [SigEvent.intermediate name]
    else []
  | d :: rest =>
    (List.range d).flatMap fun index =>
      generate_symbols (name ++ "[" ++ Nat.repr index ++ "]") rest signal_type is_public

/-- Embedding of `ExecutedTemplate::build_signals`: the sequence of graph
registrations it performs, in order — outputs, then the inputs whose name is
in the public-input set, then the remaining inputs, then intermediates. -/
def build_signals (t : ExecutedTemplate) : List SigEvent :=
  (t.outputs.flatMap fun s => generate_symbols s.1 s.2 1 false)
  ++ (t.inputs.flatMap fun s =>
        if t.public_inputs.contains s.1 then generate_symbols s.1 s.2 0 true else [])
  ++ (t.inputs.flatMap fun s =>
        if t.public_inputs.contains s.1 then [] else generate_symbols s.1 s.2 0 false)
  ++ (t.intermediates.flatMap fun s => generate_symbols s.1 s.2 2 false)

/-- Rust's `usize::cmp`. -/
def nat_cmp (a b : Nat) : Ordering :=
  if a < b then Ordering.lt else if a = b then Ordering.eq else Ordering.gt

/-- Lexicographic comparison on `Vec<usize>`, the `Ord` instance Rust uses for
`indexed_with`. -/
def list_nat_cmp : List Nat → List Nat → Ordering
  | [], [] => Ordering.eq
  | [], _ :: _ => Ordering.lt
  | _ :: _, [] => Ordering.gt
  | a :: as_, b :: bs =>
    match nat_cmp a b with
    | Ordering.eq => list_nat_cmp as_ bs
    | v => v

/-- Rust's `String::cmp`: lexicographic comparison of the byte sequences,
which for valid UTF-8 coincides with lexicographic comparison of the
codepoint sequences. -/
def string_cmp (a b : String) : Ordering :=
  list_nat_cmp (a.data.map Char.toNat) (b.data.map Char.toNat)

/-- The comparator of `build_connexions`' `sort_by` call: by sub-component
array name, ties broken by the index expression. -/
def connexion_cmp (l r : SubComponentData) : Ordering :=
  match string_cmp l.name r.name with
  | Ordering.eq => list_nat_cmp l.indexed_with r.indexed_with
  | v => v

/-- The sorting step of `build_connexions` (`self.connexions.sort_by(...)`);
Rust's stable sort is modelled by the stable `List.mergeSort`. -/
def sort_connexions (cs : List Connexion) : List Connexion :=
  cs.mergeSort fun l r => decide (connexion_cmp l.inspect r.inspect ≠ Ordering.gt)

/-- Embedding of the free function `filter_used_components`: keep, in
catalogue order, exactly the declared sub-component arrays whose name occurs
as some connexion's target array name. -/
def filter_used_components (components : List (String × List Nat))
    (connexions : List Connexion) : List (String × List Nat) :=
  components.filter fun cmp => connexions.any fun cnn => cnn.inspect.name == cmp.1

/-- The pure part of `ExecutedTemplate::build_connexions`: sort the connexion
list, then recompute the component catalogue from the sorted list.  The
interleaved `dag.add_edge` calls and offset/jump bookkeeping mutate the
external graph and are not part of any claim modelled here. -/
def build_connexions (t : ExecutedTemplate) : ExecutedTemplate :=
  let sorted := sort_connexions t.connexions
  { t with
    connexions := sorted
    components := filter_used_components t.components sorted }

/-- Embedding of the private three-point lattice `POS`. -/
inductive POS where
  | T
  | K (v : Nat)
  | B
  deriving DecidableEq, Repr

/-- Embedding of `POS::least_upper_bound`, arm for arm. -/
def POS.least_upper_bound (l r : POS) : POS :=
  match l, r with
  | POS.K v0, POS.K v1 => if v0 = v1 then POS.K v0 else POS.T
  | POS.B, p => p
  | p, POS.B => p
  | _, _ => POS.T

def POS.isTop : POS → Bool
  | POS.T => true
  | _ => false

/-- Embedding of `apply_pos_to_connexions`, read off per name: the HashMap it
returns binds exactly the names occurring in some connexion, and the binding
of a name is the `least_upper_bound`-fold of `K goes_to` over that name's
connexions in list order, seeded with `B`. -/
def apply_pos_to_connexions (cs : List Connexion) (name : String) : Option POS :=
  if cs.any (fun c => c.inspect.name == name) then
    some (((cs.filter fun c => c.inspect.name == name).map
      (fun c => POS.K c.inspect.goes_to)).foldl POS.least_upper_bound POS.B)
  else none

/-- The loop of `mixed_components` over the catalogue entries. -/
def mixed_components_list (cs : List Connexion) :
    List (String × List Nat) → Option (List Bool)
  | [] => some []
  | cmp :: rest =>
    match apply_pos_to_connexions cs cmp.1 with
    | none => none
    | some p =>
      match mixed_components_list cs rest with
      | none => none
      | some tl => some (p.isTop :: tl)

/-- Embedding of `mixed_components`: one boolean per catalogue entry, true
when the lattice analysis puts the entry's name at `T`.  The `unwrap` on the
solution lookup (a name with no connexion) is modelled by `none`. -/
def mixed_components (t : ExecutedTemplate) : Option (List Bool) :=
  mixed_components_list t.connexions t.components

/-- Signal category tag (`program_structure::ast::SignalType`). -/
inductive SignalType where
  | Output
  | Input
  | Intermediate
  deriving DecidableEq, Repr

/-- Modelled from the spec: the export-time `Signal` record of the external
compiler crate — name, shape, scalar offset within the instance (`local_id`),
scalar offset within the global numbering (`dag_local_id`), category. -/
structure Signal where
  name : String
  lengths : List Nat
  local_id : Nat
  dag_local_id : Nat
  xtype : SignalType
  deriving DecidableEq, Repr

/-- Modelled from the spec: `Signal::size` is external; per the spec's data
model, size is the product of the shape (empty shape gives size 1). -/
def Signal.size (s : Signal) : Nat := s.lengths.prod

/-- Modelled from the spec: the fields of the external `TemplateInstance`
that this core reads back (`template_header`, `template_name`, `signals`). -/
structure TemplateInstance where
  template_header : String
  template_name : String
  signals : List Signal
  deriving DecidableEq, Repr

/-- The exported argument record (external `Argument` type: name, shape,
flattened numeric contents). -/
structure Argument where
  name : String
  lengths : List Nat
  values : List Int
  deriving DecidableEq, Repr

/-- Embedding of the free function `as_big_int`: keep the `Number` payloads,
in order; drop every other expression. -/
def as_big_int : List ArithmeticExpression → List Int
  | [] => []
  | ArithmeticExpression.Number v :: rest => v :: as_big_int rest
  | _ :: rest => as_big_int rest

/-- Embedding of `build_arguments` (local fn of `export_to_circuit`): one
`Argument` per `ParameterContext` entry, its values filtered through
`as_big_int`. -/
def build_arguments
    (parameter_instances : List (String × (List Nat × List ArithmeticExpression))) :
    List Argument :=
  parameter_instances.map fun p =>
    { name := p.1, lengths := p.2.1, values := as_big_int p.2.2 }

/-- The exported component record (external `Component` type). -/
structure Component where
  name : String
  lengths : List Nat
  deriving DecidableEq, Repr

/-- Embedding of `build_components` (local fn of `export_to_circuit`). -/
def build_components (components : List (String × List Nat)) : List Component :=
  components.map fun c => { name := c.1, lengths := c.2 }

/-- The signal-numbering input of `export_to_circuit`, in the order its four
loops consume it: outputs, inputs whose name is public, the remaining inputs,
intermediates (the source splits `self.inputs` into `public` / `not_public`
in one order-preserving pass, modelled by the two filters). -/
def signals_in_order (t : ExecutedTemplate) :
    List ((String × List Nat) × SignalType) :=
  (t.outputs.map fun s => (s, SignalType.Output))
  ++ ((t.inputs.filter fun s => t.public_inputs.contains s.1).map
        fun s => (s, SignalType.Input))
  ++ ((t.inputs.filter fun s => !t.public_inputs.contains s.1).map
        fun s => (s, SignalType.Input))
  ++ (t.intermediates.map fun s => (s, SignalType.Intermediate))

/-- The numbering loop of `export_to_circuit`: `local_id` and `dag_local_id`
both advance by each built signal's size. -/
def number_signals : Nat → Nat → List ((String × List Nat) × SignalType) → List Signal
  | _, _, [] => []
  | local_id, dag_local_id, (s, ty) :: rest =>
    let signal : Signal :=
      { name := s.1, lengths := s.2, local_id := local_id,
        dag_local_id := dag_local_id, xtype := ty }
    signal :: number_signals (local_id + signal.size) (dag_local_id + signal.size) rest

/-- The signal list `export_to_circuit` adds to the produced instance:
`local_id` starts at 0 and `dag_local_id` at 1. -/
def export_signals (t : ExecutedTemplate) : List Signal :=
  number_signals 0 1 (signals_in_order t)

/-- Embedding of `ClusterType`. -/
inductive ClusterType where
  | Uniform (offset_jump : Nat) (component_offset_jump : Nat)
      (instance_id : Nat) (header : String)
  | Mixed (tmp_name : String)
  deriving DecidableEq, Repr

/-- Embedding of `TriggerCluster`; the `slice: Range<usize>` is its two
bounds. -/
structure TriggerCluster where
  slice_start : Nat
  slice_stop : Nat
  length : Nat
  cmp_name : String
  xtype : ClusterType
  deriving DecidableEq, Repr

/-- The maximal runs of adjacent connexions sharing a target array name, each
as (first element, rest of run): exactly the decomposition the
cluster-initialization `while` loop of `build_clusters` scans, expressed as a
structural recursion (`name_runs (c :: rest)` is proved to split off
`rest.takeWhile (·.name == c.name)` and continue on the matching
`dropWhile`). -/
def name_runs : List Connexion → List (Connexion × List Connexion)
  | [] => []
  | c :: rest =>
    match name_runs rest with
    | [] => [(c, [])]
    | (d, run) :: more =>
      if c.inspect.name == d.inspect.name then (c, d :: run) :: more
      else (c, []) :: (d, run) :: more

/-- The body of the cluster-initialization loop, one maximal run at a time:
the run becomes one `Uniform` cluster whose stride, target and header come
from the run's first element; `i` is the absolute index of the run's first
element.  `none` models the panic of an out-of-range `instances[...]`
access. -/
def clusters_of_runs (instances : List TemplateInstance) :
    List (Connexion × List Connexion) → Nat → Option (List (String × TriggerCluster))
  | [], _ => some []
  | (c, run) :: more, i =>
    let len := run.length + 1
    match instances.get? c.inspect.goes_to with
    | none => none
    | some inst =>
      let cluster : TriggerCluster :=
        { slice_start := i, slice_stop := i + len, length := len,
          cmp_name := c.inspect.name,
          xtype := ClusterType.Uniform c.dag_jump c.dag_component_jump
            c.inspect.goes_to inst.template_header }
      match clusters_of_runs instances more (i + len) with
      | none => none
      | some tl => some ((c.inspect.name, cluster) :: tl)

/-- The cluster-initialization `while` loop of `build_clusters`: one
`(name, cluster)` insertion per maximal contiguous same-name run, in program
order. -/
def cluster_runs (instances : List TemplateInstance) (cs : List Connexion)
    (i : Nat) : Option (List (String × TriggerCluster)) :=
  clusters_of_runs instances (name_runs cs) i

/-- `HashMap::insert` semantics for the `cmp_data` map: at most one binding
per key, a later insertion for the same key overwriting the earlier one. -/
def upsert (m : List (String × TriggerCluster)) (k : String) (v : TriggerCluster) :
    List (String × TriggerCluster) :=
  if m.any fun p => p.1 == k then
    m.map fun p => if p.1 == k then (k, v) else p
  else m ++ [(k, v)]

/-- The `cmp_data` map after the cluster-initialization loop. -/
def cmp_data_of (instances : List TemplateInstance) (cs : List Connexion) :
    Option (List (String × TriggerCluster)) :=
  (cluster_runs instances cs 0).map fun runs =>
    runs.foldl (fun m kv => upsert m kv.1 kv.2) []

/-- `HashMap::remove` on the `cmp_data` map: `none` models the `unwrap`
panic when the key has no binding. -/
def remove_key : List (String × TriggerCluster) → String →
    Option (TriggerCluster × List (String × TriggerCluster))
  | [], _ => none
  | p :: rest, k =>
    if p.1 == k then some (p.2, rest)
    else (remove_key rest k).map fun r => (r.1, p :: r.2)

/-- The `cmp_data and result binding` loop of `build_clusters`: one cluster
per catalogue entry, in catalogue order, removed from the map by name and
re-tagged `Mixed` (with the template name of the run's first target) when the
lattice verdict for its index is mixed.  Every `unwrap`/index panic of the
source is modelled by `none`. -/
def bind_clusters (connexions : List Connexion) (instances : List TemplateInstance)
    (mixed : List Bool) :
    List (String × List Nat) → Nat → List (String × TriggerCluster) →
    Option (List TriggerCluster)
  | [], _, _ => some []
  | cmp :: rest, index, m =>
    match remove_key m cmp.1 with
    | none => none
    | some (cluster, m2) =>
      match connexions.get? cluster.slice_start with
      | none => none
      | some first =>
        match instances.get? first.inspect.goes_to with
        | none => none
        | some inst =>
          match mixed.get? index with
          | none => none
          | some b =>
            let cluster2 :=
              if b then { cluster with xtype := ClusterType.Mixed inst.template_name }
              else cluster
            match bind_clusters connexions instances mixed rest (index + 1) m2 with
            | none => none
            | some tl => some (cluster2 :: tl)

/-- Embedding of the free function `build_clusters`. -/
def build_clusters (t : ExecutedTemplate) (instances : List TemplateInstance) :
    Option (List TriggerCluster) :=
  match mixed_components t with
  | none => none
  | some mixed =>
    match cmp_data_of instances t.connexions with
    | none => none
    | some m => bind_clusters t.connexions instances mixed t.components 0 m

/-! Auxiliary definitions used to state the verified properties. -/

/-- The registered name carried by a registration event. -/
def SigEvent.name : SigEvent → String
  | SigEvent.input n _ => n
  | SigEvent.output n => n
  | SigEvent.intermediate n => n

/-- Category rank realising the fixed registration order: outputs, public
inputs, private inputs, intermediates. -/
def SigEvent.rank : SigEvent → Nat
  | SigEvent.output _ => 0
  | SigEvent.input _ true => 1
  | SigEvent.input _ false => 2
  | SigEvent.intermediate _ => 3

/-- The single scalar registration `generate_symbols` performs at the bottom
of the recursion for a valid signal-type tag. -/
def mk_event (signal_type : Nat) (is_public : Bool) (name : String) : SigEvent :=
  if signal_type = 0 then SigEvent.input name is_public
  else if signal_type = 1 then SigEvent.output name
  else SigEvent.intermediate name

/-- All index vectors of a shape, enumerated in row-major order (first
dimension slowest, last dimension fastest). -/
def index_enum : List Nat → List (List Nat)
  | [] => [[]]
  | d :: rest => (List.range d).flatMap fun i => (index_enum rest).map fun ixs => i :: ixs

/-- The bracket suffix `[i0][i1]...` of an index vector. -/
def encode_ixs : List Nat → String
  | [] => ""
  | i :: rest => "[" ++ Nat.repr i ++ "]" ++ encode_ixs rest

/-- The decimal digit string of `n`, expressed through `Nat.digits`; proved
equal to the character data of `Nat.repr`. -/
def decimal_digits (n : Nat) : List Char :=
  if n = 0 then ['0'] else ((Nat.digits 10 n).map Nat.digitChar).reverse

/-- Category rank of an exported signal: outputs, public inputs, private
inputs, intermediates. -/
def signal_rank (t : ExecutedTemplate) (s : Signal) : Nat :=
  match s.xtype with
  | SignalType.Output => 0
  | SignalType.Input => if t.public_inputs.contains s.name then 1 else 2
  | SignalType.Intermediate => 3

/-- The first elements' names of the maximal same-name runs of a connexion
list.  This list being duplicate-free says every array name occupies one
contiguous block — the shape `build_connexions`' sort guarantees before
`build_clusters` runs. -/
def run_names (cs : List Connexion) : List String :=
  (name_runs cs).map fun r => r.1.inspect.name

/-- Specification reading of §4.5 (clustering), for comparison with
`build_clusters`: one cluster per catalogue entry, spanning that name's
connexion run, `Uniform` with the run's first element's stride and target
when every element of the run targets the same instantiation, `Mixed` with
the first target's template name otherwise. -/
def cluster_spec_of (cs : List Connexion) (instances : List TemplateInstance)
    (name : String) : Option TriggerCluster :=
  match cs.filter (fun c => c.inspect.name == name) with
  | [] => none
  | first :: others =>
    match instances.get? first.inspect.goes_to with
    | none => none
    | some inst =>
      let len := others.length + 1
      let start := cs.findIdx fun c => c.inspect.name == name
      some { slice_start := start, slice_stop := start + len, length := len,
             cmp_name := name,
             xtype :=
               if others.all fun c => c.inspect.goes_to == first.inspect.goes_to then
                 ClusterType.Uniform first.dag_jump first.dag_component_jump
                   first.inspect.goes_to inst.template_header
               else ClusterType.Mixed inst.template_name }

def clusters_spec_list (cs : List Connexion) (instances : List TemplateInstance) :
    List (String × List Nat) → Option (List TriggerCluster)
  | [] => some []
  | cmp :: rest =>
    match cluster_spec_of cs instances cmp.1 with
    | none => none
    | some cluster =>
      match clusters_spec_list cs instances rest with
      | none => none
      | some tl => some (cluster :: tl)

def clusters_spec (t : ExecutedTemplate) (instances : List TemplateInstance) :
    Option (List TriggerCluster) :=
  clusters_spec_list t.connexions instances t.components

/-- The mixed/uniform verdict of the lattice analysis for one array name:
true exactly when the name's connexions do not all target the same
instantiation (the fold of §4.4 ends at `T`). -/
def mixed_flag (cs : List Connexion) (name : String) : Bool :=
  match cs.filter (fun c => c.inspect.name == name) with
  | [] => false
  | first :: others => !(others.all fun c => c.inspect.goes_to == first.inspect.goes_to)

/-- What the cluster-initialization loop records for one array name, when the
loop started scanning the connexion list at absolute index `i`: the cluster
spans the name's occurrences (first occurrence at `i + findIdx`, length the
number of occurrences), is keyed and named by the array name, and is tagged
`Uniform` with the stride, target id and target header of the name's first
connexion. -/
def run_cluster_described (cs : List Connexion) (instances : List TemplateInstance)
    (i : Nat) (name : String) (cluster : TriggerCluster) : Prop :=
  ∃ first others inst,
    cs.filter (fun c => c.inspect.name == name) = first :: others ∧
    instances.get? first.inspect.goes_to = some inst ∧
    cluster = { slice_start := i + (cs.findIdx fun c => c.inspect.name == name),
                slice_stop := i + (cs.findIdx fun c => c.inspect.name == name)
                  + (others.length + 1),
                length := others.length + 1,
                cmp_name := name,
                xtype := ClusterType.Uniform first.dag_jump first.dag_component_jump
                  first.inspect.goes_to inst.template_header }

/-! Concrete fixtures used by the witnesses and counterexamples. -/

/-- A connexion whose target array is `n`, indexed with `[ix]`, wired to
instantiation `g`, with strides 5 / 1. -/
def mk_conn (n : String) (ix g : Nat) : Connexion :=
  { full_name := n, inspect := { name := n, goes_to := g, indexed_with := [ix] },
    dag_offset := 0, dag_component_offset := 0, dag_jump := 5, dag_component_jump := 1 }

/-- Ten dummy already-exported instances. -/
def eg_instances : List TemplateInstance :=
  (List.range 10).map fun i =>
    { template_header := "H" ++ Nat.repr i, template_name := "N" ++ Nat.repr i,
      signals := [] }

/-- The §8 numbering example: outputs of sizes 1 and 4, a public input of
size 2, a private input of size 3, an intermediate of size 1. -/
def eg_numbering : ExecutedTemplate :=
  { inputs := [("pin", [2]), ("priv", [3])]
    outputs := [("o1", []), ("o2", [4])]
    intermediates := [("t", [])]
    public_inputs := ["pin"]
    components := [], connexions := [], parameter_instances := [] }

/-- A three-element sub-component array `c` wired uniformly to
instantiation 7. -/
def eg_uniform : ExecutedTemplate :=
  { inputs := [], outputs := [], intermediates := [], public_inputs := []
    components := [("c", [3])]
    connexions := [mk_conn "c" 0 7, mk_conn "c" 1 7, mk_conn "c" 2 7]
    parameter_instances := [] }

/-- Like `eg_uniform` but with the middle element wired to instantiation 9. -/
def eg_mixed : ExecutedTemplate :=
  { eg_uniform with
    connexions := [mk_conn "c" 0 7, mk_conn "c" 1 9, mk_conn "c" 2 7] }

/-- Like `eg_uniform` but declaring a second sub-component array `d` that no
connexion references. -/
def eg_unmatched : ExecutedTemplate :=
  { eg_uniform with components := [("c", [3]), ("d", [1])] }

/-! ## Lattice lemmas -/

theorem lub_bot_left (p : POS) : POS.least_upper_bound POS.B p = p := by
  cases p <;> rfl

theorem lub_bot_right (p : POS) : POS.least_upper_bound p POS.B = p := by
  cases p <;> rfl

theorem lub_top_left (p : POS) : POS.least_upper_bound POS.T p = POS.T := by
  cases p <;> rfl

theorem lub_top_right (p : POS) : POS.least_upper_bound p POS.T = POS.T := by
  cases p <;> rfl

theorem lub_comm (l r : POS) :
    POS.least_upper_bound l r = POS.least_upper_bound r l := by
  cases l <;> cases r <;> first
    | rfl
    | (simp only [POS.least_upper_bound]; split_ifs <;> simp_all)

theorem lub_assoc (a b c : POS) :
    POS.least_upper_bound (POS.least_upper_bound a b) c
      = POS.least_upper_bound a (POS.least_upper_bound b c) := by
  cases a <;> cases b <;> cases c <;> simp only [POS.least_upper_bound] <;>
    split_ifs <;> simp_all [POS.least_upper_bound]

theorem lub_right_comm (z x y : POS) :
    POS.least_upper_bound (POS.least_upper_bound z x) y
      = POS.least_upper_bound (POS.least_upper_bound z y) x := by
  rw [lub_assoc, lub_assoc, lub_comm x y]

theorem apply_pos_perm (cs1 cs2 : List Connexion) (name : String)
    (h : cs1.Perm cs2) :
    apply_pos_to_connexions cs1 name = apply_pos_to_connexions cs2 name := by
  have hany : (cs1.any fun c => c.inspect.name == name)
      = (cs2.any fun c => c.inspect.name == name) := by
    rcases Bool.eq_false_or_eq_true (cs2.any fun c => c.inspect.name == name) with h2 | h2 <;>
      rw [h2] <;> simp only [List.any_eq_true, List.any_eq_false] at h2 ⊢ <;>
      first
        | exact fun c hc => h2 c (h.mem_iff.mp hc)
        | exact (h2.imp fun c hc => ⟨h.mem_iff.mpr hc.1, hc.2⟩)
  have hperm : ((cs1.filter fun c => c.inspect.name == name).map
        fun c => POS.K c.inspect.goes_to).Perm
      ((cs2.filter fun c => c.inspect.name == name).map
        fun c => POS.K c.inspect.goes_to) :=
    (h.filter _).map _
  have hfold := hperm.foldl_eq'
    (fun x _ y _ z => lub_right_comm z x y) POS.B
  simp only [apply_pos_to_connexions, hany, hfold]

/-- C6: `POS::least_upper_bound` is the join of the three-point lattice
`B < K v < T`: `B` is a unit, equal `K`s join to themselves, unequal `K`s
join to `T`, `T` is absorbing; the join is commutative and associative, so
the per-name fold of `apply_pos_to_connexions` is invariant under any
permutation of the connexion list. -/
theorem C6_least_upper_bound_lattice :
    (∀ p, POS.least_upper_bound POS.B p = p ∧ POS.least_upper_bound p POS.B = p) ∧
    (∀ v, POS.least_upper_bound (POS.K v) (POS.K v) = POS.K v) ∧
    (∀ v0 v1, v0 ≠ v1 → POS.least_upper_bound (POS.K v0) (POS.K v1) = POS.T) ∧
    (∀ p, POS.least_upper_bound POS.T p = POS.T ∧ POS.least_upper_bound p POS.T = POS.T) ∧
    (∀ l r, POS.least_upper_bound l r = POS.least_upper_bound r l) ∧
    (∀ a b c, POS.least_upper_bound (POS.least_upper_bound a b) c
        = POS.least_upper_bound a (POS.least_upper_bound b c)) ∧
    (∀ (cs1 cs2 : List Connexion) (name : String), cs1.Perm cs2 →
        apply_pos_to_connexions cs1 name = apply_pos_to_connexions cs2 name) :=
  ⟨fun p => ⟨lub_bot_left p, lub_bot_right p⟩,
   fun v => by simp [POS.least_upper_bound],
   fun v0 v1 h => by simp [POS.least_upper_bound, h],
   fun p => ⟨lub_top_left p, lub_top_right p⟩,
   lub_comm, lub_assoc, apply_pos_perm⟩

/-- Witness for C6 at concrete inputs: `K 3 ⊔ K 5 = T`, and the per-name
lattice value of a two-connexion list is unchanged by swapping the list. -/
theorem C6_least_upper_bound_lattice_witness :
    POS.least_upper_bound (POS.K 3) (POS.K 5) = POS.T ∧
    apply_pos_to_connexions [mk_conn "c" 0 7, mk_conn "c" 1 9] "c"
      = apply_pos_to_connexions [mk_conn "c" 1 9, mk_conn "c" 0 7] "c" :=
  ⟨C6_least_upper_bound_lattice.2.2.1 3 5 (by decide),
   C6_least_upper_bound_lattice.2.2.2.2.2.2 _ _ "c"
     (List.Perm.swap (mk_conn "c" 1 9) (mk_conn "c" 0 7) [])⟩

/-! ## Catalogue filtering (C7) -/

/-- C7: `build_connexions` recomputes the component catalogue to exactly the
declared sub-component arrays featuring as the target name of at least one
connexion, in their original catalogue order (a sublist of the original
catalogue); an array referenced by no connexion is therefore absent from the
exported component catalogue. -/
theorem C7_filter_used_components (t : ExecutedTemplate) :
    (build_connexions t).components.Sublist t.components ∧
    (∀ cmp, cmp ∈ (build_connexions t).components ↔
      cmp ∈ t.components ∧ ∃ cnn ∈ t.connexions, cnn.inspect.name = cmp.1) ∧
    (∀ name, (∀ cnn ∈ t.connexions, cnn.inspect.name ≠ name) →
      ∀ c ∈ build_components (build_connexions t).components, c.name ≠ name) := by
  have hmem : ∀ cnn, cnn ∈ sort_connexions t.connexions ↔ cnn ∈ t.connexions :=
    fun cnn => (List.mergeSort_perm t.connexions _).mem_iff
  refine ⟨List.filter_sublist _, fun cmp => ?_, fun name hno c hc => ?_⟩
  · simp only [build_connexions, filter_used_components, List.mem_filter,
      List.any_eq_true, beq_iff_eq]
    exact and_congr_right fun _ =>
      ⟨fun ⟨cnn, h1, h2⟩ => ⟨cnn, (hmem cnn).mp h1, h2⟩,
       fun ⟨cnn, h1, h2⟩ => ⟨cnn, (hmem cnn).mpr h1, h2⟩⟩
  · simp only [build_components, List.mem_map] at hc
    obtain ⟨cmp, hcmp, rfl⟩ := hc
    simp only [build_connexions, filter_used_components, List.mem_filter,
      List.any_eq_true, beq_iff_eq] at hcmp
    obtain ⟨-, cnn, h1, h2⟩ := hcmp
    intro h
    exact hno cnn ((hmem cnn).mp h1) (h ▸ h2)

/-- Witness for C7: in `eg_unmatched` the array `d` has no connexion, so no
entry of the exported component catalogue is named `d`. -/
theorem C7_filter_used_components_witness :
    ∀ c ∈ build_components (build_connexions eg_unmatched).components,
      c.name ≠ "d" :=
  (C7_filter_used_components eg_unmatched).2.2 "d" (by decide)

/-! ## Argument assembly (C9) -/

/-- C9 counterexample: a parameter entry whose sole value element is
non-numeric is not omitted from the exported argument list — the entry
appears (so the list is nonempty), with the non-numeric element dropped from
its numeric contents. -/
theorem C9_counterexample :
    build_arguments [("p", ([1], [ArithmeticExpression.Signal "x"]))]
      = [{ name := "p", lengths := [1], values := [] }] ∧
    build_arguments [("p", ([1], [ArithmeticExpression.Signal "x"]))] ≠ [] :=
  ⟨rfl, by decide⟩

theorem as_big_int_eq_filterMap (es : List ArithmeticExpression) :
    as_big_int es = es.filterMap fun e =>
      match e with
      | ArithmeticExpression.Number v => some v
      | _ => none := by
  induction es with
  | nil => rfl
  | cons e rest ih => cases e <;> simp [as_big_int, List.filterMap_cons, ih]

/-- C9 (amended): `build_arguments` exports one argument per parameter entry
— entries are never dropped and no error is reported; within each entry the
non-numeric value elements are silently omitted from the flattened numeric
contents while the numeric ones are kept in order, and the entry keeps its
name and shape. -/
theorem C9_build_arguments :
    ∀ pc, (build_arguments pc).length = pc.length ∧
      build_arguments pc = pc.map fun p =>
        { name := p.1, lengths := p.2.1,
          values := p.2.2.filterMap fun e =>
            match e with
            | ArithmeticExpression.Number v => some v
            | _ => none } := by
  intro pc
  constructor
  · simp [build_arguments]
  · simp only [build_arguments, as_big_int_eq_filterMap]

/-! ## Clustering abort condition (C8) -/

theorem apply_pos_isSome_iff (cs : List Connexion) (name : String) :
    (apply_pos_to_connexions cs name).isSome = true ↔
      ∃ cnn ∈ cs, cnn.inspect.name = name := by
  simp only [apply_pos_to_connexions]
  split_ifs with h
  · simpa [List.any_eq_true] using h
  · simp only [List.any_eq_true, beq_iff_eq] at h
    simpa using h

theorem mixed_components_list_some (cs : List Connexion)
    (comps : List (String × List Nat))
    (h : (mixed_components_list cs comps).isSome = true) :
    ∀ cmp ∈ comps, (apply_pos_to_connexions cs cmp.1).isSome = true := by
  induction comps with
  | nil => intro cmp hc; cases hc
  | cons cmp rest ih =>
    intro x hx
    simp only [mixed_components_list] at h
    rcases hpos : apply_pos_to_connexions cs cmp.1 with _ | p
    · rw [hpos] at h; simp at h
    · rw [hpos] at h
      rcases hrec : mixed_components_list cs rest with _ | tl
      · rw [hrec] at h; simp at h
      · rcases List.mem_cons.mp hx with hx | hx
        · rw [hx, hpos]; rfl
        · exact ih (by rw [hrec]; rfl) x hx

theorem mixed_components_list_none (cs : List Connexion)
    (comps : List (String × List Nat)) (cmp : String × List Nat)
    (hc : cmp ∈ comps) (h : apply_pos_to_connexions cs cmp.1 = none) :
    mixed_components_list cs comps = none := by
  induction comps with
  | nil => cases hc
  | cons y rest ih =>
    simp only [mixed_components_list]
    rcases List.mem_cons.mp hc with hc | hc
    · rw [← hc, h]
    · rcases hpos : apply_pos_to_connexions cs y.1 with _ | p
      · rfl
      · rw [ih hc]

/-- C8: `build_clusters` completes only when every catalogue entry's name is
the target array name of some connexion (has a cluster); when some declared
(used-catalogue) entry has no connexion, the export path aborts with no
partially-built result. -/
theorem C8_build_clusters_abort (t : ExecutedTemplate)
    (instances : List TemplateInstance) :
    ((build_clusters t instances).isSome = true →
      ∀ cmp ∈ t.components, ∃ cnn ∈ t.connexions, cnn.inspect.name = cmp.1) ∧
    ((∃ cmp ∈ t.components, ∀ cnn ∈ t.connexions, cnn.inspect.name ≠ cmp.1) →
      build_clusters t instances = none) := by
  constructor
  · intro h cmp hc
    have hsome : (mixed_components t).isSome = true := by
      simp only [build_clusters] at h
      rcases hmix : mixed_components t with _ | mixed
      · rw [hmix] at h; simp at h
      · rfl
    exact (apply_pos_isSome_iff t.connexions cmp.1).mp
      (mixed_components_list_some t.connexions t.components hsome cmp hc)
  · rintro ⟨cmp, hc, hno⟩
    have hnone : apply_pos_to_connexions t.connexions cmp.1 = none := by
      rcases hpos : apply_pos_to_connexions t.connexions cmp.1 with _ | p
      · rfl
      · exfalso
        obtain ⟨cnn, h1, h2⟩ := (apply_pos_isSome_iff t.connexions cmp.1).mp
          (by rw [hpos]; rfl)
        exact hno cnn h1 h2
    simp only [build_clusters, mixed_components]
    rw [mixed_components_list_none t.connexions t.components cmp hc hnone]

/-- Witness for C8: the completing direction at `eg_uniform` (every
catalogue name has a connexion) and the aborting direction at
`eg_unmatched` (the declared array `d` has none). -/
theorem C8_build_clusters_abort_witness :
    (∀ cmp ∈ eg_uniform.components,
      ∃ cnn ∈ eg_uniform.connexions, cnn.inspect.name = cmp.1) ∧
    build_clusters eg_unmatched eg_instances = none :=
  ⟨(C8_build_clusters_abort eg_uniform eg_instances).1 (by decide),
   (C8_build_clusters_abort eg_unmatched eg_instances).2 (by decide)⟩

/-! ## Registration order (C1) -/

theorem generate_symbols_mem (dims : List Nat) (name : String) (ty : Nat)
    (pub : Bool) :
    ∀ e ∈ generate_symbols name dims ty pub, ∃ nm, e = mk_event ty pub nm := by
  induction dims generalizing name with
  | nil =>
    intro e he
    simp only [generate_symbols] at he
    split_ifs at he with h0 h1 h2 <;>
      simp only [List.mem_singleton, List.not_mem_nil] at he
    · exact ⟨name, by simp [he, mk_event, h0]⟩
    · exact ⟨name, by simp [he, mk_event, h0, h1]⟩
    · exact ⟨name, by simp [he, mk_event, h0, h1, h2]⟩
  | cons d rest ih =>
    intro e he
    simp only [generate_symbols, List.mem_flatMap] at he
    obtain ⟨i, -, he⟩ := he
    exact ih _ e he

theorem rank_mk_event_output (pub : Bool) (nm : String) :
    (mk_event 1 pub nm).rank = 0 := by simp [mk_event, SigEvent.rank]

theorem rank_mk_event_input (pub : Bool) (nm : String) :
    (mk_event 0 pub nm).rank = if pub then 1 else 2 := by
  cases pub <;> simp [mk_event, SigEvent.rank]

theorem rank_mk_event_intermediate (pub : Bool) (nm : String) :
    (mk_event 2 pub nm).rank = 3 := by simp [mk_event, SigEvent.rank]

theorem flatMap_if_eq_filter {α β : Type} (l : List α) (p : α → Bool)
    (f : α → List β) :
    (l.flatMap fun s => if p s then f s else []) = (l.filter p).flatMap f := by
  induction l with
  | nil => rfl
  | cons x xs ih => by_cases h : p x <;> simp [List.filter_cons, h, ih]

theorem flatMap_if_not_eq_filter {α β : Type} (l : List α) (p : α → Bool)
    (f : α → List β) :
    (l.flatMap fun s => if p s then [] else f s) = (l.filter fun s => !p s).flatMap f := by
  induction l with
  | nil => rfl
  | cons x xs ih => by_cases h : p x <;> simp [List.filter_cons, h, ih]

theorem pairwise_rank_of_const {l : List SigEvent} {r : Nat}
    (h : ∀ e ∈ l, SigEvent.rank e = r) :
    l.Pairwise fun a b => a.rank ≤ b.rank := by
  induction l with
  | nil => exact List.Pairwise.nil
  | cons x xs ih =>
    refine List.Pairwise.cons (fun y hy => ?_)
      (ih fun e he => h e (List.mem_cons_of_mem _ he))
    rw [h x (List.mem_cons_self x xs), h y (List.mem_cons_of_mem _ hy)]

theorem filter_rank_eq {l : List SigEvent} {r : Nat}
    (h : ∀ e ∈ l, SigEvent.rank e = r) :
    l.filter (fun e => e.rank == r) = l :=
  List.filter_eq_self.mpr fun e he => by simp [h e he]

theorem filter_rank_ne {l : List SigEvent} {r r' : Nat}
    (h : ∀ e ∈ l, SigEvent.rank e = r') (hne : r' ≠ r) :
    l.filter (fun e => e.rank == r) = [] :=
  List.filter_eq_nil_iff.mpr fun e he => by simp [h e he, hne]

theorem build_signals_blocks (t : ExecutedTemplate) :
    build_signals t
      = (t.outputs.flatMap fun s => generate_symbols s.1 s.2 1 false)
        ++ ((t.inputs.filter fun s => t.public_inputs.contains s.1).flatMap
              fun s => generate_symbols s.1 s.2 0 true)
        ++ ((t.inputs.filter fun s => !t.public_inputs.contains s.1).flatMap
              fun s => generate_symbols s.1 s.2 0 false)
        ++ (t.intermediates.flatMap fun s => generate_symbols s.1 s.2 2 false) := by
  rw [build_signals, flatMap_if_eq_filter, flatMap_if_not_eq_filter]

theorem rank_block_outputs (t : ExecutedTemplate) :
    ∀ e ∈ t.outputs.flatMap fun s => generate_symbols s.1 s.2 1 false,
      SigEvent.rank e = 0 := by
  intro e he
  obtain ⟨s, -, hs⟩ := List.mem_flatMap.mp he
  obtain ⟨nm, rfl⟩ := generate_symbols_mem _ _ _ _ e hs
  exact rank_mk_event_output false nm

theorem rank_block_public (t : ExecutedTemplate) :
    ∀ e ∈ (t.inputs.filter fun s => t.public_inputs.contains s.1).flatMap
        fun s => generate_symbols s.1 s.2 0 true,
      SigEvent.rank e = 1 := by
  intro e he
  obtain ⟨s, -, hs⟩ := List.mem_flatMap.mp he
  obtain ⟨nm, rfl⟩ := generate_symbols_mem _ _ _ _ e hs
  simp [rank_mk_event_input]

theorem rank_block_private (t : ExecutedTemplate) :
    ∀ e ∈ (t.inputs.filter fun s => !t.public_inputs.contains s.1).flatMap
        fun s => generate_symbols s.1 s.2 0 false,
      SigEvent.rank e = 2 := by
  intro e he
  obtain ⟨s, -, hs⟩ := List.mem_flatMap.mp he
  obtain ⟨nm, rfl⟩ := generate_symbols_mem _ _ _ _ e hs
  simp [rank_mk_event_input]

theorem rank_block_intermediates (t : ExecutedTemplate) :
    ∀ e ∈ t.intermediates.flatMap fun s => generate_symbols s.1 s.2 2 false,
      SigEvent.rank e = 3 := by
  intro e he
  obtain ⟨s, -, hs⟩ := List.mem_flatMap.mp he
  obtain ⟨nm, rfl⟩ := generate_symbols_mem _ _ _ _ e hs
  exact rank_mk_event_intermediate false nm

/-- C1: `build_signals` registers the template's scalar signals with the
graph in the fixed category order — the category rank (outputs 0, public
inputs 1, private inputs 2, intermediates 3) is monotone along the emitted
registration sequence, and filtering the sequence by rank recovers exactly
the expansion of each collector (in collector order), independent of how the
declarations were interleaved when the template was built. -/
theorem C1_build_signals_order (t : ExecutedTemplate) :
    (build_signals t).Pairwise (fun a b => a.rank ≤ b.rank) ∧
    ((build_signals t).filter (fun e => e.rank == 0)
        = t.outputs.flatMap fun s => generate_symbols s.1 s.2 1 false) ∧
    ((build_signals t).filter (fun e => e.rank == 1)
        = (t.inputs.filter fun s => t.public_inputs.contains s.1).flatMap
            fun s => generate_symbols s.1 s.2 0 true) ∧
    ((build_signals t).filter (fun e => e.rank == 2)
        = (t.inputs.filter fun s => !t.public_inputs.contains s.1).flatMap
            fun s => generate_symbols s.1 s.2 0 false) ∧
    ((build_signals t).filter (fun e => e.rank == 3)
        = t.intermediates.flatMap fun s => generate_symbols s.1 s.2 2 false) := by
  have h0 := rank_block_outputs t
  have h1 := rank_block_public t
  have h2 := rank_block_private t
  have h3 := rank_block_intermediates t
  rw [build_signals_blocks]
  refine ⟨?_, ?_, ?_, ?_, ?_⟩
  · simp only [List.append_assoc, List.pairwise_append]
    refine ⟨pairwise_rank_of_const h0, ⟨pairwise_rank_of_const h1,
      ⟨pairwise_rank_of_const h2, pairwise_rank_of_const h3, ?_⟩, ?_⟩, ?_⟩
    · intro a ha b hb; rw [h2 a ha, h3 b hb]; omega
    · intro a ha b hb
      rcases List.mem_append.mp hb with hb | hb
      · rw [h1 a ha, h2 b hb]; omega
      · rw [h1 a ha, h3 b hb]; omega
    · intro a ha b hb
      rcases List.mem_append.mp hb with hb | hb
      · rw [h0 a ha, h1 b hb]; omega
      rcases List.mem_append.mp hb with hb | hb
      · rw [h0 a ha, h2 b hb]; omega
      · rw [h0 a ha, h3 b hb]; omega
  · simp only [List.filter_append]
    rw [filter_rank_eq h0, filter_rank_ne h1 (by decide),
      filter_rank_ne h2 (by decide), filter_rank_ne h3 (by decide)]
    simp
  · simp only [List.filter_append]
    rw [filter_rank_eq h1, filter_rank_ne h0 (by decide),
      filter_rank_ne h2 (by decide), filter_rank_ne h3 (by decide)]
    simp
  · simp only [List.filter_append]
    rw [filter_rank_eq h2, filter_rank_ne h0 (by decide),
      filter_rank_ne h1 (by decide), filter_rank_ne h3 (by decide)]
    simp
  · simp only [List.filter_append]
    rw [filter_rank_eq h3, filter_rank_ne h0 (by decide),
      filter_rank_ne h1 (by decide), filter_rank_ne h2 (by decide)]
    simp

/-! ## Unmatched public-input names (C10) -/

/-- C10: a name placed in the public-input set that does not occur among the
declared inputs is silently ignored — adding it to the set changes neither
the registration sequence `build_signals` emits nor the numbered signal list
`export_to_circuit` produces, and both operations are total (no failure
path). -/
theorem C10_dangling_public_input (t : ExecutedTemplate) (p : String)
    (h : p ∉ t.inputs.map Prod.fst) :
    build_signals { t with public_inputs := p :: t.public_inputs }
        = build_signals t ∧
    export_signals { t with public_inputs := p :: t.public_inputs }
        = export_signals t := by
  have hc : ∀ s ∈ t.inputs,
      (p :: t.public_inputs).contains s.1 = t.public_inputs.contains s.1 := by
    intro s hs
    have hne : s.1 ≠ p := fun he =>
      h (he ▸ List.mem_map.mpr ⟨s, hs, rfl⟩)
    simp [List.contains_cons, hne]
  have hc2 : ∀ s ∈ t.inputs,
      (!(p :: t.public_inputs).contains s.1) = (!t.public_inputs.contains s.1) :=
    fun s hs => by rw [hc s hs]
  constructor
  · rw [build_signals_blocks, build_signals_blocks]
    rw [List.filter_congr hc, List.filter_congr hc2]
  · simp only [export_signals, signals_in_order]
    rw [List.filter_congr hc, List.filter_congr hc2]

/-- Witness for C10: adding the dangling name `ghost` to the public-input
set of the numbering fixture changes nothing. -/
theorem C10_dangling_public_input_witness :
    build_signals { eg_numbering with public_inputs := "ghost" :: eg_numbering.public_inputs }
        = build_signals eg_numbering ∧
    export_signals { eg_numbering with public_inputs := "ghost" :: eg_numbering.public_inputs }
        = export_signals eg_numbering :=
  C10_dangling_public_input eg_numbering "ghost" (by decide)

/-! ## Export numbering (C2) -/

theorem number_signals_dag (l : List ((String × List Nat) × SignalType)) :
    ∀ lid d, ∀ s ∈ number_signals lid (lid + d) l, s.dag_local_id = s.local_id + d := by
  induction l with
  | nil => intro lid d s hs; cases hs
  | cons x rest ih =>
    intro lid d s hs
    obtain ⟨⟨nm, lens⟩, ty⟩ := x
    simp only [number_signals] at hs
    rcases List.mem_cons.mp hs with rfl | hs
    · rfl
    · have := ih (lid + lens.prod) d s
        (by
          have harith : lid + d + Signal.size
              { name := nm, lengths := lens, local_id := lid,
                dag_local_id := lid + d, xtype := ty }
              = lid + lens.prod + d := by
            simp [Signal.size]; omega
          rw [harith] at hs
          simpa [Signal.size] using hs)
      exact this

theorem number_signals_get (l : List ((String × List Nat) × SignalType)) :
    ∀ lid did i (h : i < (number_signals lid did l).length),
      ((number_signals lid did l).get ⟨i, h⟩).local_id
        = lid + (((number_signals lid did l).take i).map Signal.size).sum := by
  induction l with
  | nil => intro lid did i h; simp [number_signals] at h
  | cons x rest ih =>
    intro lid did i h
    obtain ⟨⟨nm, lens⟩, ty⟩ := x
    match i with
    | 0 => simp [number_signals]
    | i + 1 =>
      simp only [number_signals, List.get_cons_succ, List.take_succ_cons,
        List.map_cons, List.sum_cons]
      rw [ih]
      simp [Signal.size]
      omega

theorem number_signals_append (l1 l2 : List ((String × List Nat) × SignalType)) :
    ∀ lid did, number_signals lid did (l1 ++ l2)
      = number_signals lid did l1
        ++ number_signals (lid + (l1.map fun x => x.1.2.prod).sum)
            (did + (l1.map fun x => x.1.2.prod).sum) l2 := by
  induction l1 with
  | nil => simp [number_signals]
  | cons x rest ih =>
    intro lid did
    obtain ⟨⟨nm, lens⟩, ty⟩ := x
    have hsize : Signal.size ⟨nm, lens, lid, did, ty⟩ = lens.prod := rfl
    simp only [List.cons_append, number_signals, List.map_cons, List.sum_cons,
      List.append_eq, hsize]
    rw [ih, ← Nat.add_assoc, ← Nat.add_assoc]

theorem number_signals_shape (l : List ((String × List Nat) × SignalType)) :
    ∀ lid did, ∀ s ∈ number_signals lid did l,
      ∃ x ∈ l, s.name = x.1.1 ∧ s.lengths = x.1.2 ∧ s.xtype = x.2 := by
  induction l with
  | nil => intro lid did s hs; cases hs
  | cons x rest ih =>
    intro lid did s hs
    obtain ⟨⟨nm, lens⟩, ty⟩ := x
    simp only [number_signals] at hs
    rcases List.mem_cons.mp hs with rfl | hs
    · exact ⟨((nm, lens), ty), List.mem_cons_self _ _, rfl, rfl, rfl⟩
    · obtain ⟨y, hy, hprops⟩ := ih _ _ s hs
      exact ⟨y, List.mem_cons_of_mem _ hy, hprops⟩

theorem number_signals_rank_const (t : ExecutedTemplate)
    (l : List ((String × List Nat) × SignalType)) (r : Nat)
    (hl : ∀ x ∈ l, ∀ s : Signal, s.name = x.1.1 → s.xtype = x.2 →
      signal_rank t s = r) :
    ∀ lid did, ∀ s ∈ number_signals lid did l, signal_rank t s = r := by
  intro lid did s hs
  obtain ⟨x, hx, h1, -, h3⟩ := number_signals_shape l lid did s hs
  exact hl x hx s h1 h3

theorem pairwise_srank_of_const {t : ExecutedTemplate} {l : List Signal} {r : Nat}
    (h : ∀ s ∈ l, signal_rank t s = r) :
    l.Pairwise fun a b => signal_rank t a ≤ signal_rank t b := by
  induction l with
  | nil => exact List.Pairwise.nil
  | cons x xs ih =>
    refine List.Pairwise.cons (fun y hy => ?_)
      (ih fun e he => h e (List.mem_cons_of_mem _ he))
    rw [h x (List.mem_cons_self x xs), h y (List.mem_cons_of_mem _ hy)]

theorem rank_outputs_block (t : ExecutedTemplate) :
    ∀ x ∈ (t.outputs.map fun s => (s, SignalType.Output)), ∀ s : Signal,
      s.name = x.1.1 → s.xtype = x.2 → signal_rank t s = 0 := by
  intro x hx s h1 h2
  obtain ⟨s', -, rfl⟩ := List.mem_map.mp hx
  simp [signal_rank, h2]

theorem rank_public_block (t : ExecutedTemplate) :
    ∀ x ∈ ((t.inputs.filter fun s => t.public_inputs.contains s.1).map
        fun s => (s, SignalType.Input)), ∀ s : Signal,
      s.name = x.1.1 → s.xtype = x.2 → signal_rank t s = 1 := by
  intro x hx s h1 h2
  obtain ⟨s', hs', rfl⟩ := List.mem_map.mp hx
  have hmem : s'.1 ∈ t.public_inputs := by
    simpa using (List.mem_filter.mp hs').2
  simp [signal_rank, h2, h1, hmem]

theorem rank_private_block (t : ExecutedTemplate) :
    ∀ x ∈ ((t.inputs.filter fun s => !t.public_inputs.contains s.1).map
        fun s => (s, SignalType.Input)), ∀ s : Signal,
      s.name = x.1.1 → s.xtype = x.2 → signal_rank t s = 2 := by
  intro x hx s h1 h2
  obtain ⟨s', hs', rfl⟩ := List.mem_map.mp hx
  have hmem : s'.1 ∉ t.public_inputs := by
    simpa using (List.mem_filter.mp hs').2
  simp [signal_rank, h2, h1, hmem]

theorem rank_inter_block (t : ExecutedTemplate) :
    ∀ x ∈ (t.intermediates.map fun s => (s, SignalType.Intermediate)), ∀ s : Signal,
      s.name = x.1.1 → s.xtype = x.2 → signal_rank t s = 3 := by
  intro x hx s h1 h2
  obtain ⟨s', -, rfl⟩ := List.mem_map.mp hx
  simp [signal_rank, h2]

theorem pairwise_srank_append {t : ExecutedTemplate} {l1 l2 : List Signal}
    {r : Nat} (h1 : ∀ s ∈ l1, signal_rank t s = r)
    (h2 : ∀ s ∈ l2, r ≤ signal_rank t s)
    (hp : l2.Pairwise fun a b => signal_rank t a ≤ signal_rank t b) :
    (l1 ++ l2).Pairwise fun a b => signal_rank t a ≤ signal_rank t b := by
  rw [List.pairwise_append]
  exact ⟨pairwise_srank_of_const h1, hp, fun a ha b hb => (h1 a ha) ▸ h2 b hb⟩

/-- C2: `export_to_circuit` numbers the instance's signals in the category
order outputs, public inputs, private inputs, intermediates (the category
rank is monotone along the exported list); `local_id` starts at 0 and each
signal's `local_id` is the sum of the flattened sizes of the signals before
it; `dag_local_id` exceeds `local_id` by exactly 1 on every signal; on the
fixture with outputs of sizes 1 and 4, a public input of size 2, a private
input of size 3 and an intermediate of size 1, the signal offsets are
0,1,5,7,10 (global scheme 1,2,6,8,11) and the scalar ids they span are
exactly 0..10 in category order. -/
theorem C2_export_numbering :
    (∀ t : ExecutedTemplate, ∀ s ∈ export_signals t, s.dag_local_id = s.local_id + 1) ∧
    (∀ (t : ExecutedTemplate) (i : Nat) (h : i < (export_signals t).length),
      ((export_signals t).get ⟨i, h⟩).local_id
        = (((export_signals t).take i).map Signal.size).sum) ∧
    (∀ t : ExecutedTemplate,
      (export_signals t).Pairwise fun a b => signal_rank t a ≤ signal_rank t b) ∧
    ((export_signals eg_numbering).map (fun s => s.local_id) = [0, 1, 5, 7, 10] ∧
     (export_signals eg_numbering).map (fun s => s.dag_local_id) = [1, 2, 6, 8, 11] ∧
     (export_signals eg_numbering).flatMap (fun s => List.range' s.local_id s.size)
        = List.range 11) := by
  refine ⟨?_, ?_, ?_, by decide, by decide, by decide⟩
  · intro t s hs
    exact number_signals_dag (signals_in_order t) 0 1 s hs
  · intro t i h
    simpa using number_signals_get (signals_in_order t) 0 1 i h
  · intro t
    have c0 := number_signals_rank_const t _ 0 (rank_outputs_block t)
    have c1 := number_signals_rank_const t _ 1 (rank_public_block t)
    have c2 := number_signals_rank_const t _ 2 (rank_private_block t)
    have c3 := number_signals_rank_const t _ 3 (rank_inter_block t)
    rw [export_signals, signals_in_order, number_signals_append]
    rw [number_signals_append, number_signals_append]
    rw [List.append_assoc, List.append_assoc]
    refine pairwise_srank_append (c0 _ _) (fun s hs => Nat.zero_le _) ?_
    refine pairwise_srank_append (c1 _ _) (fun s hs => ?_) ?_
    · rcases List.mem_append.mp hs with hs | hs
      · rw [c2 _ _ s hs]; omega
      · rw [c3 _ _ s hs]; omega
    refine pairwise_srank_append (c2 _ _) (fun s hs => ?_) ?_
    · rw [c3 _ _ s hs]; omega
    exact pairwise_srank_of_const (c3 _ _)

/-- Witness for C2's indexed conclusion at a concrete input: the signal at
index 2 of the fixture's export (the public input) has `local_id` equal to
the sizes of the two outputs before it. -/
theorem C2_export_numbering_witness :
    2 < (export_signals eg_numbering).length ∧
    ((export_signals eg_numbering).get ⟨2, by decide⟩).local_id
      = (((export_signals eg_numbering).take 2).map Signal.size).sum :=
  ⟨by decide, C2_export_numbering.2.1 eg_numbering 2 (by decide)⟩

/-! ## Connexion sorting (C4) -/

theorem nat_cmp_eq_lt {a b : Nat} : nat_cmp a b = Ordering.lt ↔ a < b := by
  simp only [nat_cmp]
  split_ifs with h1 h2
  · simp [h1]
  · constructor
    · intro hh; cases hh
    · intro hh; omega
  · constructor
    · intro hh; cases hh
    · intro hh; omega

theorem nat_cmp_eq_eq {a b : Nat} : nat_cmp a b = Ordering.eq ↔ a = b := by
  simp only [nat_cmp]
  split_ifs with h1 h2
  · constructor
    · intro hh; cases hh
    · intro hh; omega
  · simp [h2]
  · constructor
    · intro hh; cases hh
    · intro hh; omega

theorem nat_cmp_swap (a b : Nat) : nat_cmp a b = (nat_cmp b a).swap := by
  simp only [nat_cmp]
  rcases Nat.lt_trichotomy a b with h | h | h
  · rw [if_pos h, if_neg (by omega : ¬ b < a), if_neg (by omega : ¬ b = a)]; rfl
  · rw [if_neg (by omega : ¬ a < b), if_pos h, if_neg (by omega : ¬ b < a),
      if_pos h.symm]; rfl
  · rw [if_neg (by omega : ¬ a < b), if_neg (by omega : ¬ a = b), if_pos h]; rfl

theorem list_nat_cmp_swap : ∀ a b : List Nat,
    list_nat_cmp a b = (list_nat_cmp b a).swap
  | [], [] => rfl
  | [], _ :: _ => rfl
  | _ :: _, [] => rfl
  | a :: as_, b :: bs => by
    simp only [list_nat_cmp]
    rw [nat_cmp_swap a b]
    cases nat_cmp b a <;> simp [Ordering.swap, list_nat_cmp_swap as_ bs]

theorem list_nat_cmp_eq_eq : ∀ a b : List Nat,
    list_nat_cmp a b = Ordering.eq ↔ a = b
  | [], [] => by simp [list_nat_cmp]
  | [], _ :: _ => by simp [list_nat_cmp]
  | _ :: _, [] => by simp [list_nat_cmp]
  | a :: as_, b :: bs => by
    simp only [list_nat_cmp]
    cases h : nat_cmp a b with
    | lt =>
      have hab := nat_cmp_eq_lt.mp h
      constructor
      · intro hh; cases hh
      · rintro ⟨rfl, -⟩; omega
    | eq =>
      have hab := nat_cmp_eq_eq.mp h
      simp [hab, list_nat_cmp_eq_eq as_ bs]
    | gt =>
      have hab : ¬ a < b ∧ ¬ a = b := by
        constructor
        · intro hlt; rw [nat_cmp_eq_lt.mpr hlt] at h; cases h
        · intro he; rw [nat_cmp_eq_eq.mpr he] at h; cases h
      constructor
      · intro hh; cases hh
      · rintro ⟨rfl, -⟩; exact absurd rfl hab.2

theorem list_nat_cmp_trans : ∀ a b c : List Nat,
    list_nat_cmp a b ≠ Ordering.gt → list_nat_cmp b c ≠ Ordering.gt →
    list_nat_cmp a c ≠ Ordering.gt
  | [], _, c, _, _ => by cases c <;> simp [list_nat_cmp]
  | _ :: _, [], _, h1, _ => by simp [list_nat_cmp] at h1
  | _ :: _, _ :: _, [], _, h2 => by simp [list_nat_cmp] at h2
  | a :: as_, b :: bs, c :: cs, h1, h2 => by
    simp only [list_nat_cmp] at h1 h2 ⊢
    cases hab : nat_cmp a b with
    | gt => rw [hab] at h1; exact absurd rfl h1
    | lt =>
      have h := nat_cmp_eq_lt.mp hab
      cases hbc : nat_cmp b c with
      | gt => rw [hbc] at h2; exact absurd rfl h2
      | lt =>
        have h' := nat_cmp_eq_lt.mp hbc
        rw [nat_cmp_eq_lt.mpr (by omega : a < c)]
        simp
      | eq =>
        have h' := nat_cmp_eq_eq.mp hbc
        rw [nat_cmp_eq_lt.mpr (by omega : a < c)]
        simp
    | eq =>
      have h := nat_cmp_eq_eq.mp hab
      rw [hab] at h1
      cases hbc : nat_cmp b c with
      | gt => rw [hbc] at h2; exact absurd rfl h2
      | lt =>
        have h' := nat_cmp_eq_lt.mp hbc
        rw [nat_cmp_eq_lt.mpr (by omega : a < c)]
        simp
      | eq =>
        have h' := nat_cmp_eq_eq.mp hbc
        rw [hbc] at h2
        rw [nat_cmp_eq_eq.mpr (by omega : a = c)]
        exact list_nat_cmp_trans as_ bs cs h1 h2

theorem connexion_cmp_swap (x y : SubComponentData) :
    connexion_cmp x y = (connexion_cmp y x).swap := by
  simp only [connexion_cmp, string_cmp]
  rw [list_nat_cmp_swap (x.name.data.map Char.toNat) (y.name.data.map Char.toNat)]
  cases list_nat_cmp (y.name.data.map Char.toNat) (x.name.data.map Char.toNat) <;>
    simp [Ordering.swap, list_nat_cmp_swap x.indexed_with y.indexed_with]

theorem connexion_cmp_trans (x y z : SubComponentData)
    (h1 : connexion_cmp x y ≠ Ordering.gt) (h2 : connexion_cmp y z ≠ Ordering.gt) :
    connexion_cmp x z ≠ Ordering.gt := by
  simp only [connexion_cmp, string_cmp] at h1 h2 ⊢
  cases hxy : list_nat_cmp (x.name.data.map Char.toNat) (y.name.data.map Char.toNat) with
  | gt => rw [hxy] at h1; exact absurd rfl h1
  | lt =>
    cases hyz : list_nat_cmp (y.name.data.map Char.toNat) (z.name.data.map Char.toNat) with
    | gt => rw [hyz] at h2; exact absurd rfl h2
    | lt =>
      have hlt : list_nat_cmp (x.name.data.map Char.toNat) (z.name.data.map Char.toNat)
          = Ordering.lt := by
        have hne := list_nat_cmp_trans _ _ _
          (by rw [hxy]; simp) (by rw [hyz]; simp)
        cases hxz : list_nat_cmp (x.name.data.map Char.toNat) (z.name.data.map Char.toNat) with
        | lt => rfl
        | gt => exact absurd hxz hne
        | eq =>
          exfalso
          have hde := (list_nat_cmp_eq_eq _ _).mp hxz
          rw [list_nat_cmp_swap, ← hde, hxy] at hyz
          cases hyz
      rw [hlt]
      simp
    | eq =>
      have hde := (list_nat_cmp_eq_eq _ _).mp hyz
      rw [← hde, hxy]
      simp
  | eq =>
    have hde := (list_nat_cmp_eq_eq _ _).mp hxy
    rw [hxy] at h1
    cases hyz : list_nat_cmp (y.name.data.map Char.toNat) (z.name.data.map Char.toNat) with
    | gt => rw [hyz] at h2; exact absurd rfl h2
    | lt =>
      rw [hde, hyz]
      simp
    | eq =>
      rw [hyz] at h2
      rw [hde, hyz]
      exact list_nat_cmp_trans _ _ _ h1 h2

/-- C4: the sorting step of `build_connexions` permutes the connexion list
into the order that is ascending for the comparator (sub-component array
name, then index expression) — every adjacent-or-later pair compares not
greater; on the §8 example `[(B,1),(A,0),(A,2),(B,0)]` the resulting order is
`[(A,0),(A,2),(B,0),(B,1)]`. -/
theorem C4_sort_connexions :
    (∀ cs : List Connexion,
      (sort_connexions cs).Perm cs ∧
      (sort_connexions cs).Pairwise fun l r =>
        connexion_cmp l.inspect r.inspect ≠ Ordering.gt) ∧
    sort_connexions [mk_conn "B" 1 0, mk_conn "A" 0 0, mk_conn "A" 2 0, mk_conn "B" 0 0]
      = [mk_conn "A" 0 0, mk_conn "A" 2 0, mk_conn "B" 0 0, mk_conn "B" 1 0] := by
  constructor
  · intro cs
    refine ⟨List.mergeSort_perm cs _, ?_⟩
    have hs := @List.sorted_mergeSort Connexion
      (fun l r : Connexion => decide (connexion_cmp l.inspect r.inspect ≠ Ordering.gt))
      (fun a b c h1 h2 => by
        simp only [decide_eq_true_eq] at h1 h2 ⊢
        exact connexion_cmp_trans a.inspect b.inspect c.inspect h1 h2)
      (fun a b => by
        simp only [Bool.or_eq_true, decide_eq_true_eq]
        by_cases h : connexion_cmp a.inspect b.inspect = Ordering.gt
        · have hlt : connexion_cmp b.inspect a.inspect = Ordering.lt := by
            have hsw := connexion_cmp_swap a.inspect b.inspect
            rw [h] at hsw
            cases hv : connexion_cmp b.inspect a.inspect <;>
              rw [hv] at hsw <;> first | rfl | cases hsw
          right
          rw [hlt]
          simp
        · exact Or.inl h)
      cs
    exact hs.imp fun h => by simpa using h
  · simp +decide [sort_connexions, List.mergeSort, List.merge, mk_conn,
      connexion_cmp, string_cmp, list_nat_cmp, nat_cmp]

/-! ## Decimal digit strings (towards C3) -/

theorem toDigitsCore_eq (n : Nat) : ∀ (f : Nat) (ds : List Char), n < f →
    Nat.toDigitsCore 10 f n ds = decimal_digits n ++ ds := by
  induction n using Nat.strong_induction_on with
  | _ n ih =>
    intro f ds hf
    cases f with
    | zero => omega
    | succ f' =>
      simp only [Nat.toDigitsCore]
      by_cases h10 : n / 10 = 0
      · rw [if_pos h10]
        have hn10 : n < 10 := by omega
        unfold decimal_digits
        by_cases hz : n = 0
        · subst hz
          simp [Nat.digitChar]
        · rw [if_neg hz]
          rw [Nat.digits_of_lt 10 n hz hn10]
          simp [Nat.mod_eq_of_lt hn10]
      · rw [if_neg h10]
        have hlt : n / 10 < n := Nat.div_lt_self (by omega) (by omega)
        rw [ih (n / 10) hlt f' _ (by omega)]
        have hsplit : decimal_digits n
            = decimal_digits (n / 10) ++ [Nat.digitChar (n % 10)] := by
          unfold decimal_digits
          rw [if_neg (by omega : ¬ n = 0), if_neg h10]
          rw [Nat.digits_def' (by norm_num : (1:Nat) < 10) (by omega : 0 < n)]
          simp
        rw [hsplit, List.append_assoc]
        rfl

theorem repr_data (n : Nat) : (Nat.repr n).data = decimal_digits n := by
  show ((Nat.toDigits 10 n).asString).data = decimal_digits n
  rw [Nat.toDigits, toDigitsCore_eq n (n + 1) [] (Nat.lt_succ_self n)]
  simp [List.asString]

theorem decimal_digits_mem (n : Nat) :
    ∀ c ∈ decimal_digits n,
      c ∈ ['0', '1', '2', '3', '4', '5', '6', '7', '8', '9'] := by
  unfold decimal_digits
  split_ifs
  · simp
  · intro c hc
    simp only [List.mem_reverse, List.mem_map] at hc
    obtain ⟨d, hd, rfl⟩ := hc
    have hlt : d < 10 := Nat.digits_lt_base (by norm_num) hd
    interval_cases d <;> decide

theorem repr_ne_rbracket (i : Nat) : ∀ c ∈ (Nat.repr i).data, c ≠ ']' := by
  intro c hc
  rw [repr_data] at hc
  have := decimal_digits_mem i c hc
  fin_cases this <;> decide

theorem digitChar_inj {a b : Nat} (ha : a < 10) (hb : b < 10)
    (h : Nat.digitChar a = Nat.digitChar b) : a = b := by
  interval_cases a <;> interval_cases b <;> simp_all <;> cases h

theorem map_digitChar_inj : ∀ (xs ys : List Nat),
    (∀ x ∈ xs, x < 10) → (∀ y ∈ ys, y < 10) →
    xs.map Nat.digitChar = ys.map Nat.digitChar → xs = ys
  | [], [], _, _, _ => rfl
  | [], _ :: _, _, _, h => by cases h
  | _ :: _, [], _, _, h => by cases h
  | x :: xs, y :: ys, hx, hy, h => by
    injection h with h1 h2
    rw [digitChar_inj (hx x (List.mem_cons_self x xs)) (hy y (List.mem_cons_self y ys)) h1,
      map_digitChar_inj xs ys (fun a ha => hx a (List.mem_cons_of_mem _ ha))
        (fun a ha => hy a (List.mem_cons_of_mem _ ha)) h2]

theorem decimal_digits_inj {m n : Nat}
    (h : decimal_digits m = decimal_digits n) : m = n := by
  unfold decimal_digits at h
  split_ifs at h with h1 h2 h2
  · omega
  · exfalso
    have hrev : (Nat.digits 10 n).map Nat.digitChar = ['0'] := by
      have := congrArg List.reverse h
      simpa using this.symm
    have hdig : Nat.digits 10 n = [0] := by
      have hlen : (Nat.digits 10 n).length = 1 := by
        have := congrArg List.length hrev
        simpa using this
      match hd : Nat.digits 10 n with
      | [d] =>
        rw [hd] at hrev
        have hd10 : d < 10 := Nat.digits_lt_base (by norm_num) (by rw [hd]; exact List.mem_singleton_self d)
        have : Nat.digitChar d = '0' := by
          simpa using hrev
        have h0 : d = 0 := digitChar_inj hd10 (by norm_num)
          (by rw [this]; rfl)
        rw [h0]
      | [] => rw [hd] at hlen; cases hlen
      | _ :: _ :: _ => rw [hd] at hlen; simp at hlen
    have := Nat.ofDigits_digits 10 n
    rw [hdig] at this
    simp [Nat.ofDigits] at this
    omega
  · exfalso
    have hrev : (Nat.digits 10 m).map Nat.digitChar = ['0'] := by
      have := congrArg List.reverse h
      simpa using this
    have hdig : Nat.digits 10 m = [0] := by
      have hlen : (Nat.digits 10 m).length = 1 := by
        have := congrArg List.length hrev
        simpa using this
      match hd : Nat.digits 10 m with
      | [d] =>
        rw [hd] at hrev
        have hd10 : d < 10 := Nat.digits_lt_base (by norm_num) (by rw [hd]; exact List.mem_singleton_self d)
        have : Nat.digitChar d = '0' := by
          simpa using hrev
        have h0 : d = 0 := digitChar_inj hd10 (by norm_num)
          (by rw [this]; rfl)
        rw [h0]
      | [] => rw [hd] at hlen; cases hlen
      | _ :: _ :: _ => rw [hd] at hlen; simp at hlen
    have := Nat.ofDigits_digits 10 m
    rw [hdig] at this
    simp [Nat.ofDigits] at this
    omega
  · have hmap : (Nat.digits 10 m).map Nat.digitChar
        = (Nat.digits 10 n).map Nat.digitChar := by
      have := congrArg List.reverse h
      simpa using this
    have hdig := map_digitChar_inj _ _
      (fun x hx => Nat.digits_lt_base (by norm_num) hx)
      (fun y hy => Nat.digits_lt_base (by norm_num) hy) hmap
    have hm := Nat.ofDigits_digits 10 m
    have hn := Nat.ofDigits_digits 10 n
    rw [← hm, ← hn, hdig]

/-! ## Bracket-suffix encoding (towards C3) -/

theorem token_append_inj : ∀ (a b r1 r2 : List Char),
    (∀ c ∈ a, c ≠ ']') → (∀ c ∈ b, c ≠ ']') →
    a ++ ']' :: r1 = b ++ ']' :: r2 → a = b ∧ r1 = r2
  | [], [], r1, r2, _, _, h => by
    simp only [List.nil_append] at h
    injection h with _ h2
    exact ⟨rfl, h2⟩
  | [], y :: bs, r1, r2, _, hb, h => by
    simp only [List.nil_append, List.cons_append] at h
    injection h with h1 _
    exact absurd h1.symm (hb y (List.mem_cons_self y bs))
  | x :: as_, [], r1, r2, ha, _, h => by
    simp only [List.nil_append, List.cons_append] at h
    injection h with h1 _
    exact absurd h1 (ha x (List.mem_cons_self x as_))
  | x :: as_, y :: bs, r1, r2, ha, hb, h => by
    simp only [List.cons_append] at h
    injection h with h1 h2
    obtain ⟨hab, hr⟩ := token_append_inj as_ bs r1 r2
      (fun c hc => ha c (List.mem_cons_of_mem _ hc))
      (fun c hc => hb c (List.mem_cons_of_mem _ hc)) h2
    exact ⟨by rw [h1, hab], hr⟩

theorem encode_ixs_data : ∀ xs : List Nat,
    (encode_ixs xs).data = xs.flatMap fun i => '[' :: ((Nat.repr i).data ++ [']'])
  | [] => rfl
  | i :: rest => by
    show ("[" ++ Nat.repr i ++ "]" ++ encode_ixs rest).data = _
    simp [String.data_append, encode_ixs_data rest]

theorem encode_flat_inj : ∀ xs ys : List Nat,
    (xs.flatMap fun i => '[' :: ((Nat.repr i).data ++ [']']))
      = (ys.flatMap fun i => '[' :: ((Nat.repr i).data ++ [']'])) → xs = ys
  | [], [], _ => rfl
  | [], _ :: _, h => by simp at h
  | _ :: _, [], h => by simp at h
  | x :: xs, y :: ys, h => by
    simp only [List.flatMap_cons, List.cons_append, List.append_assoc,
      List.singleton_append] at h
    injection h with _ h2
    obtain ⟨hd, hr⟩ := token_append_inj _ _ _ _
      (repr_ne_rbracket x) (repr_ne_rbracket y) h2
    have hxy : x = y := decimal_digits_inj (by rw [← repr_data, ← repr_data, hd])
    rw [hxy, encode_flat_inj xs ys hr]

theorem encode_ixs_inj {xs ys : List Nat}
    (h : encode_ixs xs = encode_ixs ys) : xs = ys := by
  have := congrArg String.data h
  rw [encode_ixs_data, encode_ixs_data] at this
  exact encode_flat_inj xs ys this

theorem index_enum_length : ∀ dims : List Nat,
    (index_enum dims).length = dims.prod
  | [] => rfl
  | d :: rest => by
    simp only [index_enum, List.length_flatMap, List.prod_cons]
    have : (List.map (List.length ∘ fun i => (index_enum rest).map fun ixs => i :: ixs)
        (List.range d)) = List.replicate d (index_enum rest).length := by
      rw [show (List.length ∘ fun i : Nat => (index_enum rest).map fun ixs => i :: ixs)
          = Function.const Nat (index_enum rest).length from funext fun i => by
            simp [Function.const]]
      rw [List.map_const, List.length_range]
    rw [this, List.sum_replicate, index_enum_length rest]
    simp [Nat.mul_comm]

theorem index_enum_nodup : ∀ dims : List Nat, (index_enum dims).Nodup
  | [] => by simp [index_enum]
  | d :: rest => by
    simp only [index_enum]
    rw [List.nodup_flatMap]
    constructor
    · intro i _
      exact (index_enum_nodup rest).map fun a b hab => by
        injection hab
    · refine List.Pairwise.imp ?_ (List.pairwise_lt_range d)
      intro i j hij
      intro x hx hx'
      simp only [List.mem_map] at hx hx'
      obtain ⟨u, -, hu⟩ := hx
      obtain ⟨v, -, hv⟩ := hx'
      rw [← hv] at hu
      injection hu with h1 _
      omega

theorem generate_symbols_eq (ty : Nat) (pub : Bool) (hty : ty < 3) :
    ∀ (dims : List Nat) (name : String),
    generate_symbols name dims ty pub
      = (index_enum dims).map fun ixs => mk_event ty pub (name ++ encode_ixs ixs)
  | [], name => by
    have hn : name ++ encode_ixs [] = name := String.append_empty name
    interval_cases ty <;>
      simp [generate_symbols, index_enum, mk_event, hn]
  | d :: rest, name => by
    simp only [generate_symbols, index_enum, List.map_flatMap]
    refine List.flatMap_congr fun i hi => ?_
    rw [generate_symbols_eq ty pub hty rest (name ++ "[" ++ Nat.repr i ++ "]")]
    rw [List.map_map]
    refine List.map_congr_left fun ixs hix => ?_
    simp only [Function.comp]
    congr 1
    show name ++ "[" ++ Nat.repr i ++ "]" ++ encode_ixs ixs
      = name ++ encode_ixs (i :: ixs)
    simp only [encode_ixs]
    simp [String.append_assoc]

theorem name_mk_event (ty : Nat) (pub : Bool) (nm : String) (hty : ty < 3) :
    SigEvent.name (mk_event ty pub nm) = nm := by
  interval_cases ty <;> simp [mk_event, SigEvent.name]

/-- C3: for a declared shape `[d0,...,dn-1]`, `generate_symbols` registers
exactly `d0*...*dn-1` scalar signals with the graph — the registration list
is the row-major (last-dimension-fastest) enumeration of the index vectors,
each scalar carrying the bracket-suffixed name, and the suffixed names are
pairwise distinct; an empty shape registers exactly the one scalar whose
name carries no suffix, and a shape containing a 0 entry registers nothing
for that subtree. -/
theorem C3_generate_symbols (name : String) (dims : List Nat) (ty : Nat)
    (pub : Bool) (hty : ty < 3) :
    (generate_symbols name dims ty pub).length = dims.prod ∧
    generate_symbols name dims ty pub
      = (index_enum dims).map (fun ixs => mk_event ty pub (name ++ encode_ixs ixs)) ∧
    ((generate_symbols name dims ty pub).map SigEvent.name).Nodup ∧
    generate_symbols name [] ty pub = [mk_event ty pub name] ∧
    (0 ∈ dims → generate_symbols name dims ty pub = []) := by
  have heq := generate_symbols_eq ty pub hty dims name
  have hlen : (generate_symbols name dims ty pub).length = dims.prod := by
    rw [heq, List.length_map, index_enum_length]
  refine ⟨hlen, heq, ?_, ?_, ?_⟩
  · rw [heq, List.map_map]
    have hmm : (SigEvent.name ∘ fun ixs => mk_event ty pub (name ++ encode_ixs ixs))
        = fun ixs => name ++ encode_ixs ixs :=
      funext fun ixs => name_mk_event ty pub _ hty
    rw [hmm]
    refine (index_enum_nodup dims).map_on ?_
    intro x hx y hy hxy
    have hse : encode_ixs x = encode_ixs y := by
      have hd := congrArg String.data hxy
      simp only [String.data_append] at hd
      exact String.ext (List.append_cancel_left hd)
    exact encode_ixs_inj hse
  · rw [generate_symbols_eq ty pub hty [] name]
    simp [index_enum, encode_ixs, String.append_empty]
  · intro h0
    exact List.length_eq_zero.mp (hlen.trans (List.prod_eq_zero h0))

/-- Witness for C3 at shape `[2,3]` (six distinct scalars) and at the
zero-containing shape `[2,0,3]` (no scalars). -/
theorem C3_generate_symbols_witness :
    (generate_symbols "x" [2, 3] 0 true).length = [2, 3].prod ∧
    generate_symbols "x" [2, 0, 3] 2 false = [] :=
  ⟨(C3_generate_symbols "x" [2, 3] 0 true (by decide)).1,
   (C3_generate_symbols "x" [2, 0, 3] 2 false (by decide)).2.2.2.2 (by decide)⟩

/-! ## Lattice fold characterization (towards C5) -/

theorem foldl_lub_top (l : List POS) :
    l.foldl POS.least_upper_bound POS.T = POS.T := by
  induction l with
  | nil => rfl
  | cons x xs ih => simpa [lub_top_left] using ih

theorem foldl_lub_K (gs : List Nat) (g : Nat) :
    (gs.map POS.K).foldl POS.least_upper_bound (POS.K g)
      = if gs.all (fun x => x == g) then POS.K g else POS.T := by
  induction gs with
  | nil => simp
  | cons x xs ih =>
    by_cases hx : x = g
    · subst hx
      simpa [POS.least_upper_bound] using ih
    · have : POS.least_upper_bound (POS.K g) (POS.K x) = POS.T := by
        simp [POS.least_upper_bound]
        intro h
        exact absurd h.symm hx
      simp [this, foldl_lub_top, hx]

theorem all_map_goes (xs : List Connexion) (g : Nat) :
    ((xs.map fun c => c.inspect.goes_to).all fun x => x == g)
      = xs.all fun c => c.inspect.goes_to == g := by
  induction xs with
  | nil => rfl
  | cons x xs ih => simp [ih]

theorem apply_pos_eq (cs : List Connexion) (name : String)
    (first : Connexion) (others : List Connexion)
    (hf : cs.filter (fun c => c.inspect.name == name) = first :: others) :
    apply_pos_to_connexions cs name
      = some (if others.all (fun c => c.inspect.goes_to == first.inspect.goes_to)
          then POS.K first.inspect.goes_to else POS.T) := by
  have hmem : first ∈ cs.filter (fun c => c.inspect.name == name) := by
    rw [hf]; exact List.mem_cons_self _ _
  have hany : (cs.any fun c => c.inspect.name == name) = true := by
    rw [List.any_eq_true]
    exact ⟨first, (List.mem_filter.mp hmem).1, (List.mem_filter.mp hmem).2⟩
  rw [apply_pos_to_connexions, if_pos hany, hf]
  simp only [List.map_cons, List.foldl_cons, lub_bot_left]
  have hmm : others.map (fun c => POS.K c.inspect.goes_to)
      = (others.map fun c => c.inspect.goes_to).map POS.K := by
    rw [List.map_map]; rfl
  rw [hmm, foldl_lub_K]
  rw [all_map_goes others first.inspect.goes_to]

theorem isTop_ite (b : Bool) (g : Nat) :
    POS.isTop (if b then POS.K g else POS.T) = !b := by
  cases b <;> simp [POS.isTop]

theorem mixed_components_list_eq (cs : List Connexion) :
    ∀ comps : List (String × List Nat),
    (∀ cmp ∈ comps, ∃ cnn ∈ cs, cnn.inspect.name = cmp.1) →
    mixed_components_list cs comps
      = some (comps.map fun cmp => mixed_flag cs cmp.1)
  | [], _ => rfl
  | cmp :: rest, hused => by
    obtain ⟨cnn, hcnn, hname⟩ := hused cmp (List.mem_cons_self _ _)
    have hfne : cs.filter (fun c => c.inspect.name == cmp.1) ≠ [] := by
      intro hnil
      have : cnn ∈ cs.filter (fun c => c.inspect.name == cmp.1) :=
        List.mem_filter.mpr ⟨hcnn, by simp [hname]⟩
      rw [hnil] at this
      cases this
    rcases hf : cs.filter (fun c => c.inspect.name == cmp.1) with _ | ⟨first, others⟩
    · exact absurd hf hfne
    · simp only [mixed_components_list]
      rw [apply_pos_eq cs cmp.1 first others hf]
      rw [mixed_components_list_eq cs rest
        (fun c hc => hused c (List.mem_cons_of_mem _ hc))]
      simp only [List.map_cons]
      congr 1
      rw [show mixed_flag cs cmp.1
          = !(others.all fun c => c.inspect.goes_to == first.inspect.goes_to) by
        rw [mixed_flag, hf]]
      rw [isTop_ite]

/-! ## Run decomposition of the connexion list (towards C5) -/

theorem name_runs_cons : ∀ (rest : List Connexion) (c : Connexion),
    name_runs (c :: rest)
      = (c, rest.takeWhile fun d => d.inspect.name == c.inspect.name)
        :: name_runs (rest.dropWhile fun d => d.inspect.name == c.inspect.name)
  | [], c => rfl
  | d :: rest', c => by
    have hstep : name_runs (c :: d :: rest')
        = match name_runs (d :: rest') with
          | [] => [(c, [])]
          | (d', run) :: more =>
            if c.inspect.name == d'.inspect.name then (c, d' :: run) :: more
            else (c, []) :: (d', run) :: more := rfl
    rw [hstep, name_runs_cons rest' d]
    by_cases hcd : c.inspect.name = d.inspect.name
    · have hb : (c.inspect.name == d.inspect.name) = true := by simp [hcd]
      have hb' : (d.inspect.name == c.inspect.name) = true := by simp [hcd]
      have hpp : (fun x : Connexion => x.inspect.name == c.inspect.name)
          = fun x => x.inspect.name == d.inspect.name := by
        funext x; rw [hcd]
      simp only [hb, if_true, List.takeWhile_cons, List.dropWhile_cons, hb', hpp]
      simp
    · have hb : (c.inspect.name == d.inspect.name) = false := by
        simp only [beq_eq_false_iff_ne, ne_eq]; exact hcd
      have hb' : (d.inspect.name == c.inspect.name) = false := by
        simp only [beq_eq_false_iff_ne, ne_eq]; exact fun h => hcd h.symm
      simp only [hb, List.takeWhile_cons, List.dropWhile_cons, hb',
        Bool.false_eq_true, if_false, cond_false]
      rw [← name_runs_cons rest' d]

theorem name_runs_flatten : ∀ cs : List Connexion,
    (name_runs cs).flatMap (fun r => r.1 :: r.2) = cs
  | [] => rfl
  | c :: rest => by
    rw [name_runs_cons rest c]
    simp only [List.flatMap_cons]
    rw [name_runs_flatten (rest.dropWhile fun d => d.inspect.name == c.inspect.name)]
    simp [List.takeWhile_append_dropWhile]
termination_by cs => cs.length
decreasing_by
  exact Nat.lt_succ_of_le (List.dropWhile_suffix _).length_le

theorem run_names_cons (c : Connexion) (rest : List Connexion) :
    run_names (c :: rest)
      = c.inspect.name
        :: run_names (rest.dropWhile fun d => d.inspect.name == c.inspect.name) := by
  rw [run_names, name_runs_cons rest c, List.map_cons]
  rfl

theorem run_names_mem : ∀ (cs : List Connexion) (name : String),
    name ∈ run_names cs ↔ ∃ c ∈ cs, c.inspect.name = name
  | [] , name => by simp [run_names, name_runs]
  | c :: rest, name => by
    rw [run_names_cons c rest]
    simp only [List.mem_cons]
    constructor
    · rintro (rfl | hmem)
      · exact ⟨c, Or.inl rfl, rfl⟩
      · obtain ⟨d, hd, hdn⟩ := (run_names_mem _ name).mp hmem
        exact ⟨d, Or.inr ((List.dropWhile_suffix _).subset hd), hdn⟩
    · rintro ⟨x, hx, rfl⟩
      rcases hx with rfl | hx
      · exact Or.inl rfl
      · rw [← @List.takeWhile_append_dropWhile Connexion
          (fun d => d.inspect.name == c.inspect.name) rest] at hx
        rcases List.mem_append.mp hx with hx | hx
        · have := List.mem_takeWhile_imp hx
          simp only [beq_iff_eq] at this
          exact Or.inl this
        · exact Or.inr ((run_names_mem _ _).mpr ⟨x, hx, rfl⟩)
termination_by cs => cs.length
decreasing_by
  all_goals exact Nat.lt_succ_of_le (List.dropWhile_suffix _).length_le

theorem grouped_tail (c : Connexion) (rest : List Connexion)
    (Hg : (run_names (c :: rest)).Nodup) :
    (run_names (rest.dropWhile fun d => d.inspect.name == c.inspect.name)).Nodup ∧
    (∀ d ∈ rest.dropWhile fun d => d.inspect.name == c.inspect.name,
      d.inspect.name ≠ c.inspect.name) := by
  rw [run_names_cons c rest] at Hg
  obtain ⟨hnot, hnd⟩ := List.nodup_cons.mp Hg
  exact ⟨hnd, fun d hd he => hnot ((run_names_mem _ _).mpr ⟨d, hd, he⟩)⟩

theorem findIdx_past_front {α : Type} (p : α → Bool) : ∀ (l1 l2 : List α),
    (∀ x ∈ l1, p x = false) → (l1 ++ l2).findIdx p = l1.length + l2.findIdx p
  | [], l2, _ => by simp
  | x :: xs, l2, h => by
    rw [List.cons_append, List.findIdx_cons, h x (List.mem_cons_self x xs)]
    rw [findIdx_past_front p xs l2 fun y hy => h y (List.mem_cons_of_mem _ hy)]
    simp only [List.length_cons, cond_false]
    omega

theorem cluster_runs_some (instances : List TemplateInstance) :
    ∀ (cs : List Connexion) (i : Nat),
    (run_names cs).Nodup →
    (∀ c ∈ cs, c.inspect.goes_to < instances.length) →
    ∃ runs, cluster_runs instances cs i = some runs ∧
      runs.map Prod.fst = run_names cs ∧
      ∀ e ∈ runs, run_cluster_described cs instances i e.1 e.2
  | [], i, _, _ => ⟨[], rfl, rfl, by simp⟩
  | c :: rest, i, Hg, Hb => by
    obtain ⟨hnd', hnone⟩ := grouped_tail c rest Hg
    set p := fun d : Connexion => d.inspect.name == c.inspect.name with hp
    set tw := rest.takeWhile p with htw
    set dr := rest.dropWhile p with hdr
    obtain ⟨inst, hinst⟩ : ∃ inst, instances.get? c.inspect.goes_to = some inst := by
      have hg := Hb c (List.mem_cons_self _ _)
      exact ⟨instances.get ⟨c.inspect.goes_to, hg⟩, List.get?_eq_get hg⟩
    obtain ⟨tl, htl, hmap, hdesc⟩ :=
      cluster_runs_some instances dr (i + (tw.length + 1)) hnd'
        (fun d hd => Hb d (List.mem_cons_of_mem _ ((List.dropWhile_suffix _).subset hd)))
    have hsplit : rest = tw ++ dr := (List.takeWhile_append_dropWhile ..).symm
    have htw_names : ∀ x ∈ tw, x.inspect.name = c.inspect.name := fun x hx => by
      have := List.mem_takeWhile_imp hx
      simpa [hp] using this
    have hrun : cluster_runs instances (c :: rest) i
        = some ((c.inspect.name,
            { slice_start := i, slice_stop := i + (tw.length + 1),
              length := tw.length + 1, cmp_name := c.inspect.name,
              xtype := ClusterType.Uniform c.dag_jump c.dag_component_jump
                c.inspect.goes_to inst.template_header }) :: tl) := by
      rw [cluster_runs, name_runs_cons rest c]
      show clusters_of_runs instances ((c, tw) :: name_runs dr) i = _
      rw [clusters_of_runs, hinst]
      rw [show clusters_of_runs instances (name_runs dr) (i + (tw.length + 1))
          = cluster_runs instances dr (i + (tw.length + 1)) from rfl, htl]
    refine ⟨_, hrun, ?_, ?_⟩
    · rw [List.map_cons, hmap, run_names_cons c rest]
    · intro e he
      rcases List.mem_cons.mp he with rfl | he
      · refine ⟨c, tw, inst, ?_, hinst, ?_⟩
        · rw [List.filter_cons]
          simp only [hp, beq_self_eq_true, if_true]
          rw [hsplit, List.filter_append]
          rw [List.filter_eq_self.mpr fun x hx => by
              simp [htw_names x hx]]
          rw [List.filter_eq_nil_iff.mpr fun x hx => by
              simp [hnone x hx]]
          rw [List.append_nil]
        · have hidx : ((c :: rest).findIdx fun d => d.inspect.name == c.inspect.name) = 0 := by
            rw [List.findIdx_cons]
            simp
          simp only [hidx, Nat.add_zero]
      · have hname : e.1 ∈ run_names dr := by
          rw [← hmap]
          exact List.mem_map.mpr ⟨e, he, rfl⟩
        have hne : e.1 ≠ c.inspect.name := by
          intro heq
          rw [run_names_cons c rest] at Hg
          rw [heq] at hname
          exact (List.nodup_cons.mp Hg).1 hname
        obtain ⟨first, others, inst', hf, hinst', hcl⟩ := hdesc e he
        refine ⟨first, others, inst', ?_, hinst', ?_⟩
        · rw [List.filter_cons]
          rw [if_neg (by
            simp only [beq_iff_eq]
            exact fun hh => hne hh.symm)]
          rw [hsplit, List.filter_append]
          rw [List.filter_eq_nil_iff.mpr fun x hx => by
              simp only [beq_iff_eq]
              rw [htw_names x hx]
              exact fun hh => hne hh.symm]
          rw [List.nil_append]
          exact hf
        · have hidx : ((c :: rest).findIdx fun d => d.inspect.name == e.1)
              = (tw.length + 1) + (dr.findIdx fun d => d.inspect.name == e.1) := by
            have : (c :: rest) = (c :: tw) ++ dr := by
              rw [hsplit]; rfl
            rw [this, findIdx_past_front _ (c :: tw) dr fun x hx => by
              rcases List.mem_cons.mp hx with rfl | hx
              · simp only [beq_eq_false_iff_ne, ne_eq]
                exact fun hh => hne hh.symm
              · simp only [beq_eq_false_iff_ne, ne_eq]
                rw [htw_names x hx]
                exact fun hh => hne hh.symm]
            simp
          rw [hcl]
          have harith : i + (tw.length + 1)
                + (dr.findIdx fun d => d.inspect.name == e.1)
              = i + ((c :: rest).findIdx fun d => d.inspect.name == e.1) := by
            rw [hidx]; omega
          rw [← harith]
termination_by cs => cs.length
decreasing_by
  exact Nat.lt_succ_of_le (List.dropWhile_suffix _).length_le

/-! ## The `cmp_data` map (towards C5) -/

theorem foldl_upsert_eq : ∀ (runs m : List (String × TriggerCluster)),
    (runs.map Prod.fst).Nodup →
    (∀ e ∈ m, ∀ k ∈ runs.map Prod.fst, e.1 ≠ k) →
    runs.foldl (fun acc kv => upsert acc kv.1 kv.2) m = m ++ runs
  | [], m, _, _ => by simp
  | (k, v) :: rest, m, hnd, hfresh => by
    simp only [List.foldl_cons]
    have hup : upsert m k v = m ++ [(k, v)] := by
      rw [upsert, if_neg ?_]
      rw [Bool.not_eq_true, List.any_eq_false]
      intro e he
      simp only [beq_iff_eq]
      exact hfresh e he k (by simp)
    rw [hup]
    rw [foldl_upsert_eq rest (m ++ [(k, v)])
      (by simpa using (List.nodup_cons.mp (by simpa using hnd)).2)
      (by
        intro e he k' hk'
        rcases List.mem_append.mp he with he | he
        · exact hfresh e he k' (by simp [hk'])
        · rcases List.mem_singleton.mp he with rfl
          intro hek
          have : k ∉ rest.map Prod.fst := (List.nodup_cons.mp (by simpa using hnd)).1
          rw [show (k, v).1 = k from rfl] at hek
          exact this (hek ▸ hk'))]
    simp

theorem remove_key_isSome : ∀ (m : List (String × TriggerCluster)) (k : String),
    k ∈ m.map Prod.fst → ∃ r, remove_key m k = some r
  | [], k, h => by cases h
  | (k', v') :: rest, k, h => by
    by_cases hk : k' = k
    · exact ⟨(v', rest), by rw [remove_key, if_pos (by simp [hk])]⟩
    · have hmem : k ∈ rest.map Prod.fst := by
        simp only [List.map_cons, List.mem_cons] at h
        rcases h with hh | hh
        · exact absurd hh.symm hk
        · exact hh
      obtain ⟨r, hr⟩ := remove_key_isSome rest k hmem
      exact ⟨(r.1, (k', v') :: r.2), by
        rw [remove_key, if_neg (by simp [hk]), hr]; rfl⟩

theorem remove_key_split : ∀ (m : List (String × TriggerCluster)) (k : String) r,
    remove_key m k = some r →
    ∃ m1 m2, m = m1 ++ (k, r.1) :: m2 ∧ r.2 = m1 ++ m2 ∧ ∀ e ∈ m1, e.1 ≠ k
  | [], k, r, h => by cases h
  | (k', v') :: rest, k, r, h => by
    rw [remove_key] at h
    by_cases hk : k' = k
    · rw [if_pos (by simp [hk])] at h
      subst hk
      injection h with h'
      subst h'
      exact ⟨[], rest, rfl, rfl, by simp⟩
    · rw [if_neg (by simp [hk])] at h
      rcases hrec : remove_key rest k with _ | r'
      · rw [hrec] at h; cases h
      · rw [hrec] at h
        simp only [Option.map_some'] at h
        injection h with h'
        subst h'
        obtain ⟨m1, m2, hm, hr2, hfr⟩ := remove_key_split rest k r' hrec
        refine ⟨(k', v') :: m1, m2, ?_, ?_, ?_⟩
        · rw [List.cons_append, ← hm]
        · show (k', v') :: r'.2 = (k', v') :: m1 ++ m2
          rw [hr2]; rfl
        · intro e he
          rcases List.mem_cons.mp he with rfl | he
          · exact hk
          · exact hfr e he

theorem get_findIdx_filter {α : Type} (p : α → Bool) :
    ∀ (l : List α) (first : α) (others : List α),
    l.filter p = first :: others → l.get? (l.findIdx p) = some first
  | [], first, others, h => by cases h
  | x :: xs, first, others, h => by
    rw [List.filter_cons] at h
    by_cases hx : p x = true
    · rw [if_pos hx] at h
      injection h with h1 _
      rw [List.findIdx_cons, hx]
      simp [h1]
    · rw [if_neg hx] at h
      rw [List.findIdx_cons, Bool.not_eq_true _ |>.mp hx]
      simpa using get_findIdx_filter p xs first others h

theorem bind_clusters_eq (cs : List Connexion) (instances : List TemplateInstance)
    (mixed : List Bool) :
    ∀ (comps : List (String × List Nat)) (index : Nat)
      (m : List (String × TriggerCluster)),
    (comps.map Prod.fst).Nodup →
    (∀ cmp ∈ comps, cmp.1 ∈ m.map Prod.fst) →
    (∀ e ∈ m, run_cluster_described cs instances 0 e.1 e.2) →
    mixed.drop index = comps.map (fun cmp => mixed_flag cs cmp.1) →
    bind_clusters cs instances mixed comps index m
      = clusters_spec_list cs instances comps
  | [], index, m, _, _, _, _ => rfl
  | cmp :: rest, index, m, hcnd, hkeys, hdesc, hmx => by
    obtain ⟨r, hr⟩ := remove_key_isSome m cmp.1 (hkeys cmp (List.mem_cons_self _ _))
    obtain ⟨rc, rm⟩ := r
    obtain ⟨m1, m2, hm, hr2, hfr⟩ := remove_key_split m cmp.1 (rc, rm) hr
    have hmem : (cmp.1, rc) ∈ m := by
      rw [hm]
      exact List.mem_append.mpr (Or.inr (List.mem_cons_self _ _))
    obtain ⟨first, others, inst, hf, hinst, hcl⟩ := hdesc _ hmem
    dsimp only at hf hcl hr2 hm
    have hstart : rc.slice_start = cs.findIdx fun c => c.inspect.name == cmp.1 := by
      rw [hcl]
      simp
    have hget : cs.get? rc.slice_start = some first := by
      rw [hstart]
      exact get_findIdx_filter _ cs first others hf
    have hmxget : mixed.get? index = some (mixed_flag cs cmp.1) := by
      have h0 : (mixed.drop index).get? 0 = mixed.get? (index + 0) := by
        simp [List.get?_eq_getElem?, List.getElem?_drop]
      rw [Nat.add_zero] at h0
      rw [← h0, hmx]
      rfl
    have hmx' : mixed.drop (index + 1)
        = rest.map fun cmp => mixed_flag cs cmp.1 := by
      rw [← List.tail_drop, hmx]
      rfl
    have hrm_sub : ∀ e ∈ rm, e ∈ m := by
      intro e he
      rw [hr2] at he
      rw [hm]
      rcases List.mem_append.mp he with he | he
      · exact List.mem_append.mpr (Or.inl he)
      · exact List.mem_append.mpr (Or.inr (List.mem_cons_of_mem _ he))
    have hrm_keys : ∀ cmp' ∈ rest, cmp'.1 ∈ rm.map Prod.fst := by
      intro cmp' hc'
      have hne : cmp'.1 ≠ cmp.1 := by
        intro he
        have hcnd' : (cmp.1 :: rest.map Prod.fst).Nodup := by
          simpa only [List.map_cons] using hcnd
        exact (List.nodup_cons.mp hcnd').1
          (he ▸ List.mem_map.mpr ⟨cmp', hc', rfl⟩)
      have hin : cmp'.1 ∈ m.map Prod.fst :=
        hkeys cmp' (List.mem_cons_of_mem _ hc')
      rw [hm] at hin
      rw [hr2]
      simp only [List.map_append, List.map_cons, List.mem_append,
        List.mem_cons] at hin ⊢
      rcases hin with hin | hin | hin
      · exact Or.inl hin
      · exact absurd hin hne
      · exact Or.inr hin
    have hcnd' : (cmp.1 :: rest.map Prod.fst).Nodup := by
      simpa only [List.map_cons] using hcnd
    have hrec := bind_clusters_eq cs instances mixed rest (index + 1) rm
      (List.nodup_cons.mp hcnd').2
      hrm_keys (fun e he => hdesc e (hrm_sub e he)) hmx'
    have hspec : cluster_spec_of cs instances cmp.1
        = some { slice_start := cs.findIdx fun c => c.inspect.name == cmp.1,
                 slice_stop := (cs.findIdx fun c => c.inspect.name == cmp.1)
                   + (others.length + 1),
                 length := others.length + 1,
                 cmp_name := cmp.1,
                 xtype :=
                   if others.all fun c => c.inspect.goes_to == first.inspect.goes_to
                   then ClusterType.Uniform first.dag_jump first.dag_component_jump
                     first.inspect.goes_to inst.template_header
                   else ClusterType.Mixed inst.template_name } := by
      rw [cluster_spec_of, hf]
      dsimp only
      rw [hinst]
    have hflag : mixed_flag cs cmp.1
        = !(others.all fun c => c.inspect.goes_to == first.inspect.goes_to) := by
      rw [mixed_flag, hf]
    simp only [bind_clusters, clusters_spec_list]
    rw [hr]
    dsimp only
    rw [hget]
    dsimp only
    rw [hinst]
    dsimp only
    rw [hmxget]
    dsimp only
    rw [hrec, hspec]
    dsimp only
    cases hcs : clusters_spec_list cs instances rest with
    | none => rfl
    | some tl =>
      dsimp only
      congr 1
      by_cases hall : (others.all
          fun c => c.inspect.goes_to == first.inspect.goes_to) = true
      · rw [hflag, hall]
        simp only [Bool.not_true, Bool.false_eq_true, if_false, if_pos hall]
        rw [hcl]
        simp
      · rw [hflag, Bool.not_eq_true _ |>.mp hall]
        simp only [Bool.not_false, if_true, if_neg hall]
        rw [hcl]
        simp

/-- C5: over a connexion list whose array names are grouped into contiguous
runs (as `build_connexions`' sort guarantees) with a duplicate-free used
catalogue and in-range targets, `build_clusters` computes exactly the §4.5
specification `clusters_spec`: one cluster per catalogue entry spanning that
name's maximal run, `Uniform` with the run's first element's stride, target
id and header when all of the run's elements target the same instantiation,
and `Mixed` with the first target's template name otherwise; the second part
ties the tag to the lattice: the analysis yields `T` for a name exactly when
not all its connexions target the first one's instantiation. -/
theorem C5_build_clusters (t : ExecutedTemplate) (instances : List TemplateInstance)
    (Hg : (run_names t.connexions).Nodup)
    (Hnd : (t.components.map Prod.fst).Nodup)
    (Hused : ∀ cmp ∈ t.components, ∃ cnn ∈ t.connexions, cnn.inspect.name = cmp.1)
    (Hbound : ∀ cnn ∈ t.connexions, cnn.inspect.goes_to < instances.length) :
    build_clusters t instances = clusters_spec t instances ∧
    (∀ name first others,
      t.connexions.filter (fun c => c.inspect.name == name) = first :: others →
      (apply_pos_to_connexions t.connexions name = some POS.T ↔
        ¬ (others.all fun c => c.inspect.goes_to == first.inspect.goes_to) = true)) := by
  constructor
  · have hmc : mixed_components t
        = some (t.components.map fun cmp => mixed_flag t.connexions cmp.1) :=
      mixed_components_list_eq t.connexions t.components Hused
    obtain ⟨runs, hruns, hrmap, hrdesc⟩ :=
      cluster_runs_some instances t.connexions 0 Hg Hbound
    have hknd : (runs.map Prod.fst).Nodup := by rw [hrmap]; exact Hg
    have hcd : cmp_data_of instances t.connexions = some runs := by
      rw [cmp_data_of, hruns, Option.map_some']
      rw [foldl_upsert_eq runs [] hknd (by intro e he; cases he)]
      rw [List.nil_append]
    rw [build_clusters, hmc]
    dsimp only
    rw [hcd]
    dsimp only
    exact bind_clusters_eq t.connexions instances _ t.components 0 runs Hnd
      (fun cmp hc => by
        obtain ⟨cnn, hcnn, hname⟩ := Hused cmp hc
        rw [hrmap]
        exact (run_names_mem _ _).mpr ⟨cnn, hcnn, hname⟩)
      hrdesc
      (by rw [List.drop_zero])
  · intro name first others hf
    rw [apply_pos_eq t.connexions name first others hf]
    constructor
    · intro h hall
      rw [if_pos hall] at h
      injection h with h'
      cases h'
    · intro hnall
      rw [if_neg hnall]

/-- Witness for C5: the hypotheses hold and the theorem applies on the
fixtures — a three-element array uniformly wired to instantiation 7, and the
same array with its middle element wired to 9; the specification values show
the Uniform cluster of length 3 and the Mixed re-tagging. -/
theorem C5_build_clusters_witness :
    build_clusters eg_uniform eg_instances = clusters_spec eg_uniform eg_instances ∧
    build_clusters eg_mixed eg_instances = clusters_spec eg_mixed eg_instances ∧
    clusters_spec eg_uniform eg_instances
      = some [{ slice_start := 0, slice_stop := 3, length := 3, cmp_name := "c",
                xtype := ClusterType.Uniform 5 1 7 "H7" }] ∧
    clusters_spec eg_mixed eg_instances
      = some [{ slice_start := 0, slice_stop := 3, length := 3, cmp_name := "c",
                xtype := ClusterType.Mixed "N7" }] :=
  ⟨(C5_build_clusters eg_uniform eg_instances (by decide) (by decide)
      (by decide) (by decide)).1,
   (C5_build_clusters eg_mixed eg_instances (by decide) (by decide)
      (by decide) (by decide)).1,
   by decide, by decide⟩

end Circom
